import Mathlib

/-!
Verification of the ILI9488 LCD monitor program (Orange Pi 5 Plus).

Shallow embedding of the program's pure computational core:
* `Renderer.cpp` color conversions (RGB565 / RGB888),
* `PrinterClient.cpp` ETA computation,
* `AnimationEngine.cpp` interpolation step,
* `SystemMetrics.cpp` snapshot publishing and WAN status stabilization,
* `Renderer.cpp` bounded history rings,
* `ILI9488.cpp` rectangle upload byte stream,
* `main.cpp` dirty-tile differ (`compute_dirty_tiles`, `build_rects_from_tiles`)
  and the full-frame escalation decision.

C++ machine integers are mapped to `Nat`/`Int` with explicit masks where the
source masks; `double` values that the source only combines with field
accesses, comparisons, `+`, `*`, `/`, `min`/`max` are mapped to `ℚ`.
-/

/-! ### Color conversion (src/Renderer.cpp, rgb565_to_rgb888 / rgb888_to_rgb565)

`r = ((c >> 11) & 0x1F) * 255 / 31; g = ((c >> 5) & 0x3F) * 255 / 63;
 b = (c & 0x1F) * 255 / 31` and back
`rr = (r * 31 / 255) & 0x1F; gg = (g * 63 / 255) & 0x3F; bb = (b * 31 / 255) & 0x1F;
 (rr << 11) | (gg << 5) | bb`.  All divisions are C integer divisions. -/

def rgb565_to_rgb888 (c : Nat) : Nat × Nat × Nat :=
  (c / 2 ^ 11 % 32 * 255 / 31, c / 2 ^ 5 % 64 * 255 / 63, c % 32 * 255 / 31)

def rgb888_to_rgb565 (r g b : Nat) : Nat :=
  let rr := r * 31 / 255 % 32
  let gg := g * 63 / 255 % 64
  let bb := b * 31 / 255 % 32
  rr * 2 ^ 11 + gg * 2 ^ 5 + bb

def roundtrip565 (c : Nat) : Nat :=
  let x := rgb565_to_rgb888 c
  rgb888_to_rgb565 x.1 x.2.1 x.2.2

/-- Per-channel effect of the 5-bit round trip: fixed at the endpoints,
otherwise a decrement by one. -/
def chanRT5 (v : Nat) : Nat := if v = 0 ∨ v = 31 then v else v - 1

/-- Per-channel effect of the 6-bit round trip: the scaling `v * 255 / 63`
is exact precisely when `21 ∣ v`, and those channels are fixed; every other
channel is decremented by one. -/
def chanRT6 (v : Nat) : Nat := if v % 21 = 0 then v else v - 1

lemma chanRT5_spec : ∀ v < 32, v * 255 / 31 * 31 / 255 % 32 = chanRT5 v := by decide

lemma chanRT6_spec : ∀ v < 64, v * 255 / 63 * 63 / 255 % 64 = chanRT6 v := by decide

/-! ### Printer ETA (src/PrinterClient.cpp, worker)

```
int eta = -1;
if (progress > 0.03 && elapsed > 5.0) {
    double total = elapsed / progress;
    double rem = total - elapsed;
    if (rem > 0) eta = static_cast<int>(rem);
}
```
The C cast truncates toward zero; on the `rem > 0` branch that is the floor. -/

def computeEta (progress elapsed : ℚ) : Int :=
  if 3 / 100 < progress ∧ 5 < elapsed then
    if 0 < elapsed / progress - elapsed then ⌊elapsed / progress - elapsed⌋
    else -1
  else -1

/-! ### Animation step (src/AnimationEngine.cpp, step)

```
double interpolation_factor = std::min(1.0, interpolation_speed * dt * 10.0);
double new_value = val.current + (val.target - val.current) * interpolation_factor;
if (val.target >= 0 && new_value < 0) new_value = 0.0;
```
with `interpolation_speed = 0.3`. -/

def animStep (speed current target dt : ℚ) : ℚ :=
  let f := min 1 (speed * dt * 10)
  let nv := current + (target - current) * f
  if 0 ≤ target ∧ nv < 0 then 0 else nv

def interpolationSpeed : ℚ := 3 / 10

/-! ### Metrics snapshot publishing (src/SystemMetrics.cpp, Update)

`Update` returns `false` immediately when `metrics_pending_` is unset;
otherwise it copies the pending snapshot into the public fields and clears
the flag. -/

structure MetricsSnapshot where
  cpu_usage : ℚ
  mem_percent : ℚ
  mem_used_mb : Int
  temp : ℚ
  net1_mbps : ℚ
  net2_mbps : ℚ
  docker_running : Int
  disk_percent : Int
  wg_active_peers : Int
  uptime_seconds : Int
  mc_online : Int
  mc_max : Int
deriving DecidableEq

structure SystemMetricsState where
  pub : MetricsSnapshot
  metricsPending : Bool
  pendingSnapshot : MetricsSnapshot
deriving DecidableEq

def SystemMetricsUpdate (s : SystemMetricsState) : SystemMetricsState × Bool :=
  if s.metricsPending = false then (s, false)
  else ({ s with pub := s.pendingSnapshot, metricsPending := false }, true)

/-! ## Theorems for claims C3, C6, C8, C9 -/

/-- C3 counterexample: the RGB565 → RGB888 → RGB565 round trip is not a
fixed point: color `0x0001` (blue channel 1) comes back as `0`. -/
theorem roundtrip565_not_fixed : ¬ roundtrip565 1 = 1 := by decide

/-- C3 (amended): for every 16-bit RGB565 color, the RGB888 round trip acts
channel-wise: a 5-bit channel is fixed exactly at `0` and `31` and otherwise
decremented by one, and a 6-bit channel is fixed exactly at the multiples of
`21` (where the byte scaling is exact) and otherwise decremented by one. -/
theorem roundtrip565_channelwise (c : Nat) (_hc : c < 2 ^ 16) :
    roundtrip565 c =
      chanRT5 (c / 2 ^ 11 % 32) * 2 ^ 11 + chanRT6 (c / 2 ^ 5 % 64) * 2 ^ 5 +
        chanRT5 (c % 32) := by
  have h5 : c / 2 ^ 11 % 32 < 32 := Nat.mod_lt _ (by norm_num)
  have h6 : c / 2 ^ 5 % 64 < 64 := Nat.mod_lt _ (by norm_num)
  have hb : c % 32 < 32 := Nat.mod_lt _ (by norm_num)
  simp only [roundtrip565, rgb565_to_rgb888, rgb888_to_rgb565]
  rw [chanRT5_spec _ h5, chanRT6_spec _ h6, chanRT5_spec _ hb]

/-- C3 amended-claim witness at a concrete input. -/
theorem roundtrip565_channelwise_witness :
    roundtrip565 2048 = chanRT5 (2048 / 2 ^ 11 % 32) * 2 ^ 11 +
      chanRT6 (2048 / 2 ^ 5 % 64) * 2 ^ 5 + chanRT5 (2048 % 32) :=
  roundtrip565_channelwise 2048 (by decide)

/-- C6 counterexample: at `progress = 1`, `elapsed = 10` the published ETA is
`-1` although `progress > 0.03` and `elapsed > 5`, so "`eta_sec = -1` iff
`progress ≤ 0.03` or `elapsed ≤ 5`" fails. -/
theorem computeEta_not_iff :
    ¬ (computeEta 1 10 = -1 ↔ ((1 : ℚ) ≤ 3 / 100 ∨ (10 : ℚ) ≤ 5)) := by
  have h : computeEta 1 10 = -1 := by norm_num [computeEta]
  intro hiff
  rcases hiff.mp h with h1 | h1 <;> norm_num at h1

/-- C6 (amended): the published ETA is `-1` iff `progress ≤ 0.03`, or
`elapsed ≤ 5`, or the remainder `elapsed/progress - elapsed` is not positive;
in every other case it is `elapsed/progress - elapsed` floored to an
integer. -/
theorem computeEta_spec (progress elapsed : ℚ) :
    (computeEta progress elapsed = -1 ↔
      (progress ≤ 3 / 100 ∨ elapsed ≤ 5 ∨ elapsed / progress - elapsed ≤ 0)) ∧
    (3 / 100 < progress → 5 < elapsed → 0 < elapsed / progress - elapsed →
      computeEta progress elapsed = ⌊elapsed / progress - elapsed⌋) := by
  constructor
  · unfold computeEta
    split_ifs with h1 h2
    · constructor
      · intro hfl
        exfalso
        have h0 : (0 : Int) ≤ ⌊elapsed / progress - elapsed⌋ :=
          Int.floor_nonneg.mpr (le_of_lt h2)
        omega
      · rintro (h | h | h)
        · exact absurd h (not_le.mpr h1.1)
        · exact absurd h (not_le.mpr h1.2)
        · exact absurd h (not_le.mpr h2)
    · exact iff_of_true rfl (Or.inr (Or.inr (le_of_not_lt h2)))
    · rcases not_and_or.mp h1 with h | h
      · exact iff_of_true rfl (Or.inl (le_of_not_lt h))
      · exact iff_of_true rfl (Or.inr (Or.inl (le_of_not_lt h)))
  · intro h1 h2 h3
    unfold computeEta
    rw [if_pos ⟨h1, h2⟩, if_pos h3]

/-- C6 amended-claim witness: `progress = 1/2`, `elapsed = 300` gives
`eta = 300` (spec scenario S6), and the `-1` characterization holds there. -/
theorem computeEta_spec_witness :
    ((computeEta (1 / 2) 300 = -1 ↔
        ((1 / 2 : ℚ) ≤ 3 / 100 ∨ (300 : ℚ) ≤ 5 ∨
          (300 : ℚ) / (1 / 2) - 300 ≤ 0)) ∧
      ((3 / 100 : ℚ) < 1 / 2 → (5 : ℚ) < 300 →
        0 < (300 : ℚ) / (1 / 2) - 300 →
        computeEta (1 / 2) 300 = ⌊(300 : ℚ) / (1 / 2) - 300⌋)) :=
  computeEta_spec (1 / 2) 300

/-- C8 counterexample: with target `1`, current `0` and the monotone dt
sequence `[1/3, 1/3]` the interpolation factor saturates at `1`, the value
reaches the target after the first step and `|target - current|` is `0` at
both steps — not strictly decreasing. -/
theorem animStep_not_strict :
    ¬ |1 - animStep interpolationSpeed
          (animStep interpolationSpeed 0 1 (1 / 3)) 1 (1 / 3)| <
        |1 - animStep interpolationSpeed 0 1 (1 / 3)| := by
  norm_num [animStep, interpolationSpeed]

/-- C8 (amended): for a constant target and any step `dt ≥ 0` the animation
step never overshoots (the new value stays between the old value and the
target) and `|target - current|` never increases; it strictly decreases
whenever `dt > 0` and the value has not yet reached the target. -/
theorem animStep_monotone (current target dt : ℚ) (hdt : 0 ≤ dt) :
    (min current target ≤ animStep interpolationSpeed current target dt ∧
      animStep interpolationSpeed current target dt ≤ max current target) ∧
    |target - animStep interpolationSpeed current target dt| ≤
      |target - current| ∧
    (0 < dt → current ≠ target →
      |target - animStep interpolationSpeed current target dt| <
        |target - current|) := by
  have hf0 : 0 ≤ min 1 (interpolationSpeed * dt * 10) := by
    have : (0 : ℚ) ≤ interpolationSpeed * dt * 10 := by
      unfold interpolationSpeed; positivity
    exact le_min (by norm_num) this
  have hf1 : min 1 (interpolationSpeed * dt * 10) ≤ 1 := min_le_left _ _
  set f := min 1 (interpolationSpeed * dt * 10) with hfdef
  have hnv : ∀ c t : ℚ, t - (c + (t - c) * f) = (t - c) * (1 - f) := by
    intro c t; ring
  unfold animStep
  rw [← hfdef]
  set nv := current + (target - current) * f with hnvdef
  have hbetween : min current target ≤ nv ∧ nv ≤ max current target := by
    constructor
    · rcases le_total current target with h | h
      · have : 0 ≤ (target - current) * f := mul_nonneg (by linarith) hf0
        rw [min_eq_left h]; linarith [this]
      · have : (target - current) * f ≥ (target - current) * 1 := by
          apply mul_le_mul_of_nonpos_left hf1 (by linarith)
        rw [min_eq_right h]; simp only [hnvdef]; linarith
    · rcases le_total current target with h | h
      · have : (target - current) * f ≤ (target - current) * 1 :=
          mul_le_mul_of_nonneg_left hf1 (by linarith)
        rw [max_eq_right h]; simp only [hnvdef]; linarith
      · have : (target - current) * f ≤ 0 :=
          mul_nonpos_of_nonpos_of_nonneg (by linarith) hf0
        rw [max_eq_left h]; simp only [hnvdef]; linarith
  have hdist : |target - nv| ≤ |target - current| := by
    rw [hnvdef, hnv, abs_mul]
    have h1f : |1 - f| ≤ 1 := by
      rw [abs_le]; constructor <;> linarith
    calc |target - current| * |1 - f| ≤ |target - current| * 1 :=
          mul_le_mul_of_nonneg_left h1f (abs_nonneg _)
      _ = |target - current| := mul_one _
  by_cases hcl : 0 ≤ target ∧ nv < 0
  · rw [if_pos hcl]
    have ht0 : 0 ≤ target := hcl.1
    have hnvneg : nv < 0 := hcl.2
    have hcneg : current < 0 := by
      by_contra hc
      push_neg at hc
      have : 0 ≤ min current target := le_min hc ht0
      linarith [hbetween.1]
    refine ⟨⟨min_le_of_left_le (le_of_lt hcneg), le_max_of_le_right ht0⟩,
      ?_, ?_⟩
    · rw [abs_of_nonneg (by linarith : (0:ℚ) ≤ target - 0),
        abs_of_nonneg (by linarith : (0:ℚ) ≤ target - current)]
      linarith
    · intro _ _
      rw [abs_of_nonneg (by linarith : (0:ℚ) ≤ target - 0),
        abs_of_nonneg (by linarith : (0:ℚ) ≤ target - current)]
      linarith
  · rw [if_neg hcl]
    refine ⟨hbetween, hdist, ?_⟩
    intro hdtpos hne
    have hfpos : 0 < f := by
      rw [hfdef]
      apply lt_min (by norm_num)
      unfold interpolationSpeed
      positivity
    rw [hnv, abs_mul]
    have htc : 0 < |target - current| := by
      rw [abs_pos]; intro h; apply hne; linarith
    have h1f : |1 - f| < 1 := by
      rw [abs_lt]; constructor <;> linarith
    calc |target - current| * |1 - f| < |target - current| * 1 :=
          mul_lt_mul_of_pos_left h1f htc
      _ = |target - current| := mul_one _

/-- C8 amended-claim witness at `current = 0`, `target = 1`, `dt = 1`. -/
theorem animStep_monotone_witness :
    ((min (0:ℚ) 1 ≤ animStep interpolationSpeed 0 1 1 ∧
        animStep interpolationSpeed 0 1 1 ≤ max (0:ℚ) 1) ∧
      |(1:ℚ) - animStep interpolationSpeed 0 1 1| ≤ |(1:ℚ) - 0| ∧
      (0 < (1 : ℚ) → (0:ℚ) ≠ 1 →
        |(1:ℚ) - animStep interpolationSpeed 0 1 1| < |(1:ℚ) - 0|)) :=
  animStep_monotone 0 1 1 zero_le_one

/-- C9: when no snapshot is pending, `SystemMetrics::Update` returns `false`
and every public metric field is unchanged. -/
theorem systemMetricsUpdate_no_pending (s : SystemMetricsState)
    (h : s.metricsPending = false) :
    (SystemMetricsUpdate s).2 = false ∧
      (SystemMetricsUpdate s).1.pub.cpu_usage = s.pub.cpu_usage ∧
      (SystemMetricsUpdate s).1.pub.mem_percent = s.pub.mem_percent ∧
      (SystemMetricsUpdate s).1.pub.mem_used_mb = s.pub.mem_used_mb ∧
      (SystemMetricsUpdate s).1.pub.temp = s.pub.temp ∧
      (SystemMetricsUpdate s).1.pub.net1_mbps = s.pub.net1_mbps ∧
      (SystemMetricsUpdate s).1.pub.net2_mbps = s.pub.net2_mbps ∧
      (SystemMetricsUpdate s).1.pub.docker_running = s.pub.docker_running ∧
      (SystemMetricsUpdate s).1.pub.disk_percent = s.pub.disk_percent ∧
      (SystemMetricsUpdate s).1.pub.wg_active_peers = s.pub.wg_active_peers ∧
      (SystemMetricsUpdate s).1.pub.uptime_seconds = s.pub.uptime_seconds ∧
      (SystemMetricsUpdate s).1.pub.mc_online = s.pub.mc_online ∧
      (SystemMetricsUpdate s).1.pub.mc_max = s.pub.mc_max := by
  simp [SystemMetricsUpdate, h]

/-- C9 witness at a concrete non-pending state. -/
theorem systemMetricsUpdate_no_pending_witness :
    (SystemMetricsUpdate
        ⟨⟨0, 0, 0, 0, 0, 0, -1, -1, -1, 0, -1, -1⟩, false,
          ⟨1, 2, 3, 4, 5, 6, 7, 8, 9, 10, 11, 12⟩⟩).2 = false ∧
      (SystemMetricsUpdate
        ⟨⟨0, 0, 0, 0, 0, 0, -1, -1, -1, 0, -1, -1⟩, false,
          ⟨1, 2, 3, 4, 5, 6, 7, 8, 9, 10, 11, 12⟩⟩).1.pub.cpu_usage = 0 :=
  have h := systemMetricsUpdate_no_pending
    ⟨⟨0, 0, 0, 0, 0, 0, -1, -1, -1, 0, -1, -1⟩, false,
      ⟨1, 2, 3, 4, 5, 6, 7, 8, 9, 10, 11, 12⟩⟩ rfl
  ⟨h.1, h.2.1⟩

/-! ### History rings (src/Renderer.cpp, Renderer::UpdateHistories)

```
auto push = [&](std::deque<double>& dq, double v) {
    if (dq.size() >= history_size_) dq.pop_front();
    dq.push_back(v);
};
```
with `history_size_ = (DISPLAY_WIDTH >= 400 ? 120 : 60)` set in the
constructor.  All four rings (cpu, temp, net1, net2) use this one `push`. -/

def historySize (w : Nat) : Nat := if 400 ≤ w then 120 else 60

def ringPush {α : Type} (H : Nat) (dq : List α) (v : α) : List α :=
  (if H ≤ dq.length then dq.tail else dq) ++ [v]

def ringPushAll {α : Type} (H : Nat) (dq : List α) (vs : List α) : List α :=
  vs.foldl (ringPush H) dq


lemma ringPushAll_step (H : Nat) (dq vs : List ℚ) (v : ℚ) :
    ringPushAll H dq (vs ++ [v]) = ringPush H (ringPushAll H dq vs) v := by
  simp [ringPushAll, List.foldl_append]

lemma ringPush_length (H : Nat) (hH : 1 ≤ H) (dq : List ℚ) (v : ℚ) :
    (ringPush H dq v).length =
      if H ≤ dq.length then dq.length else dq.length + 1 := by
  unfold ringPush
  split_ifs with h
  · simp only [List.length_append, List.length_tail, List.length_singleton]
    omega
  · simp

lemma ringPushAll_length (H : Nat) (hH : 1 ≤ H) (vs : List ℚ) :
    (ringPushAll H [] vs).length = min vs.length H := by
  induction vs using List.reverseRecOn with
  | nil => simp [ringPushAll]
  | append_singleton vs v ih =>
    rw [ringPushAll_step, ringPush_length H hH, ih]
    simp only [List.length_append, List.length_singleton]
    split_ifs with h <;> omega

lemma ringPushAll_getLast (H : Nat) (hH : 1 ≤ H) (vs : List ℚ) :
    (ringPushAll H [] vs)[H - 1]? =
      if H ≤ vs.length then vs.getLast? else none := by
  induction vs using List.reverseRecOn with
  | nil =>
    simp only [ringPushAll, List.foldl_nil, List.length_nil]
    rw [if_neg (by omega)]
    simp
  | append_singleton vs v ih =>
    have hLlen : (ringPushAll H [] vs).length = min vs.length H :=
      ringPushAll_length H hH vs
    rw [ringPushAll_step]
    set L := ringPushAll H [] vs with hLdef
    unfold ringPush
    rw [List.length_append, List.length_singleton, List.getLast?_concat]
    by_cases hfull : H ≤ L.length
    · rw [if_pos hfull, if_pos (by omega)]
      have htail : L.tail.length = H - 1 := by
        rw [List.length_tail]
        omega
      rw [List.getElem?_append_right htail.le, htail, Nat.sub_self]
      simp
    · rw [if_neg hfull]
      by_cases hcase : H ≤ vs.length + 1
      · rw [if_pos hcase]
        have hv : L.length = H - 1 := by omega
        rw [List.getElem?_append_right hv.le, hv, Nat.sub_self]
        simp
      · rw [if_neg hcase]
        apply List.getElem?_eq_none
        rw [List.length_append, List.length_singleton]
        omega

/-- C7: for each history ring with capacity `H = historySize w` (`120` when
the display width is at least `400`, else `60`): starting from the empty
ring, after the pushes `vs` the length is `min |vs| H` (hence never exceeds
`H`), and the element at index `H - 1` exists exactly when at least `H`
values were pushed and is then the most recently pushed value. -/
theorem historyRing_spec (w : Nat) (vs : List ℚ) :
    (ringPushAll (historySize w) [] vs).length =
      min vs.length (historySize w) ∧
    (ringPushAll (historySize w) [] vs).length ≤ historySize w ∧
    (ringPushAll (historySize w) [] vs)[historySize w - 1]? =
      (if historySize w ≤ vs.length then vs.getLast? else none) := by
  have hH : 1 ≤ historySize w := by
    unfold historySize
    split_ifs <;> omega
  refine ⟨ringPushAll_length _ hH vs, ?_, ringPushAll_getLast _ hH vs⟩
  rw [ringPushAll_length _ hH vs]
  omega

/-- C7 witness: width `480` (capacity `120`), two pushes. -/
theorem historyRing_spec_witness :
    (ringPushAll (historySize 480) [] ([3, 7] : List ℚ)).length =
      min ([3, 7] : List ℚ).length (historySize 480) ∧
    (ringPushAll (historySize 480) [] ([3, 7] : List ℚ)).length ≤
      historySize 480 ∧
    (ringPushAll (historySize 480) [] ([3, 7] : List ℚ))[historySize 480 - 1]? =
      (if historySize 480 ≤ ([3, 7] : List ℚ).length then
        ([3, 7] : List ℚ).getLast? else none) :=
  historyRing_spec 480 [3, 7]

/-! ### WAN status stabilization
(src/SystemMetrics.cpp, SystemMetrics::update_wan_status_from_history)

The raw observation is pushed into `wan_status_history_`, a deque trimmed to
`wan_history_size_ = 3`.  If any kept observation equals `"DOWN"` the status
is `"DOWN"`; else, with two or more observations, the status is the key of
`std::max_element` over an ordered `std::map<std::string,int>` of counts
under the strictly-less comparison `a.second < b.second` (so the first,
i.e. lexicographically smallest, key among maximal counts); with one
observation it is that observation.

Statuses are modeled as an arbitrary linearly ordered type with decidable
equality (for `std::string` this is the lexicographic order), with a
distinguished element standing for `"DOWN"`. -/

section Wan

variable {α : Type} [LinearOrder α]

/-- `wan_status_history_.push_back(new_state)` followed by the
`size > cap → pop_front` trim. -/
def pushRing (cap : Nat) (ring : List α) (s : α) : List α :=
  if cap < (ring ++ [s]).length then (ring ++ [s]).tail else ring ++ [s]

/-- `counts[state]++` on an ordered map represented as an association list
sorted by key (`std::map` insertion point, default-constructed `0` then
incremented). -/
def mapInsert (k : α) : List (α × Nat) → List (α × Nat)
  | [] => [(k, 1)]
  | (k', n) :: rest =>
    if k < k' then (k, 1) :: (k', n) :: rest
    else if k' < k then (k', n) :: mapInsert k rest
    else (k', n + 1) :: rest

/-- The `for (state : ring) counts[state]++` loop. -/
def buildCounts (ring : List α) : List (α × Nat) :=
  ring.foldl (fun m k => mapInsert k m) []

/-- The scan of `std::max_element` with comparison `a.second < b.second`:
keep the current largest, replacing only on a strictly greater count, so the
first maximal element wins. -/
def foldMax (best : α × Nat) (rest : List (α × Nat)) : α × Nat :=
  rest.foldl (fun b c => if b.2 < c.2 then c else b) best

/-- `std::max_element(begin, end, a.second < b.second)` (`end` on an empty
map). -/
def maxElt : List (α × Nat) → Option (α × Nat)
  | [] => none
  | x :: rest => some (foldMax x rest)

variable [DecidableEq α]

/-- `SystemMetrics::update_wan_status_from_history`, returning the new ring
and the new `wan_status` (given the previous `wan_status` for the impossible
`max_element == end()` fallback). -/
def update_wan_status_from_history (down : α) (ring : List α) (wan : α)
    (s : α) : List α × α :=
  let r := pushRing 3 ring s
  if r.any (fun x => x = down) then (r, down)
  else if 2 ≤ r.length then
    match maxElt (buildCounts r) with
    | some kv => (r, kv.1)
    | none => (r, wan)
  else (r, s)

end Wan

section WanLemmas

variable {α : Type} [LinearOrder α]

/-- Keys of `mapInsert k m` come from `k` and the keys of `m`. -/
lemma mapInsert_keys (k : α) (m : List (α × Nat)) :
    ∀ kv ∈ mapInsert k m, kv.1 = k ∨ kv.1 ∈ m.map Prod.fst := by
  induction m with
  | nil =>
    intro kv hkv
    simp only [mapInsert, List.mem_singleton] at hkv
    subst hkv
    exact Or.inl rfl
  | cons hd tl ih =>
    obtain ⟨k', n⟩ := hd
    intro kv hkv
    simp only [mapInsert] at hkv
    split_ifs at hkv with h1 h2
    · rcases List.mem_cons.mp hkv with h | h
      · subst h; exact Or.inl rfl
      · exact Or.inr (by simpa using List.mem_map_of_mem Prod.fst h)
    · rcases List.mem_cons.mp hkv with h | h
      · subst h; exact Or.inr (by simp)
      · rcases ih kv h with h' | h'
        · exact Or.inl h'
        · refine Or.inr ?_
          simp only [List.map_cons, List.mem_cons]
          exact Or.inr h'
    · rcases List.mem_cons.mp hkv with h | h
      · subst h; exact Or.inr (by simp)
      · refine Or.inr ?_
        simp only [List.map_cons, List.mem_cons]
        exact Or.inr (List.mem_map_of_mem Prod.fst h)

/-- `mapInsert` keeps the association list strictly sorted by key. -/
lemma mapInsert_pairwise (k : α) (m : List (α × Nat))
    (hm : m.Pairwise (fun a b => a.1 < b.1)) :
    (mapInsert k m).Pairwise (fun a b => a.1 < b.1) := by
  induction m with
  | nil => simp [mapInsert]
  | cons hd tl ih =>
    obtain ⟨k', n⟩ := hd
    obtain ⟨hhd, htl⟩ := List.pairwise_cons.mp hm
    simp only [mapInsert]
    split_ifs with h1 h2
    · refine List.pairwise_cons.mpr ⟨?_, hm⟩
      intro y hy
      rcases List.mem_cons.mp hy with h | h
      · subst h; exact h1
      · exact lt_trans h1 (hhd y h)
    · refine List.pairwise_cons.mpr ⟨?_, ih htl⟩
      intro y hy
      rcases mapInsert_keys k tl y hy with h | h
      · rw [h]; exact h2
      · obtain ⟨z, hz, hzy⟩ := List.mem_map.mp h
        rw [← hzy]; exact hhd z hz
    · exact List.pairwise_cons.mpr ⟨fun y hy => hhd y hy, htl⟩

/-- Total count stored under key `k` (sum over matching entries). -/
def cntKey [DecidableEq α] (m : List (α × Nat)) (k : α) : Nat :=
  ((m.filter (fun kv => kv.1 = k)).map Prod.snd).sum

lemma cntKey_nil [DecidableEq α] (k : α) : cntKey ([] : List (α × Nat)) k = 0 := rfl

lemma cntKey_cons [DecidableEq α] (hd : α × Nat) (tl : List (α × Nat)) (k : α) :
    cntKey (hd :: tl) k = (if hd.1 = k then hd.2 else 0) + cntKey tl k := by
  by_cases h : hd.1 = k
  · simp [cntKey, List.filter_cons, h]
  · simp [cntKey, List.filter_cons, h]

lemma cntKey_eq_zero [DecidableEq α] {m : List (α × Nat)} {k : α}
    (h : ∀ kv ∈ m, kv.1 ≠ k) : cntKey m k = 0 := by
  induction m with
  | nil => rfl
  | cons hd tl ih =>
    rw [cntKey_cons, if_neg (h hd (List.mem_cons_self hd tl)),
      ih fun kv hkv => h kv (List.mem_cons_of_mem hd hkv)]

lemma cntKey_eq_of_mem [DecidableEq α] {m : List (α × Nat)} {k : α} {n : Nat}
    (hm : m.Pairwise (fun a b => a.1 < b.1)) (h : (k, n) ∈ m) :
    cntKey m k = n := by
  induction m with
  | nil => cases h
  | cons hd tl ih =>
    obtain ⟨hhd, htl⟩ := List.pairwise_cons.mp hm
    rcases List.mem_cons.mp h with h' | h'
    · subst h'
      rw [cntKey_cons, if_pos rfl]
      have hz : ∀ kv ∈ tl, kv.1 ≠ k := fun kv hkv => ne_of_gt (hhd kv hkv)
      rw [cntKey_eq_zero hz]
      simp
    · rw [cntKey_cons]
      have hne : hd.1 ≠ k := ne_of_lt (hhd (k, n) h')
      rw [if_neg hne, ih htl h']
      omega

/-- Inserting `k` only increments the `k` entry. -/
lemma mapInsert_mem_cases [DecidableEq α] (k : α) (m : List (α × Nat))
    (hm : m.Pairwise (fun a b => a.1 < b.1)) :
    ∀ kv ∈ mapInsert k m,
      (kv ∈ m ∧ kv.1 ≠ k) ∨ (kv.1 = k ∧ kv.2 = cntKey m k + 1) := by
  induction m with
  | nil =>
    intro kv hkv
    simp only [mapInsert, List.mem_singleton] at hkv
    subst hkv
    exact Or.inr ⟨rfl, by simp [cntKey_nil]⟩
  | cons hd tl ih =>
    obtain ⟨k', n⟩ := hd
    obtain ⟨hhd, htl⟩ := List.pairwise_cons.mp hm
    intro kv hkv
    simp only [mapInsert] at hkv
    split_ifs at hkv with h1 h2
    · rcases List.mem_cons.mp hkv with h | h
      · subst h
        refine Or.inr ⟨rfl, ?_⟩
        have hz : ∀ kv ∈ (k', n) :: tl, kv.1 ≠ k := by
          intro kv hkv
          rcases List.mem_cons.mp hkv with h | h
          · subst h; exact ne_of_gt h1
          · exact ne_of_gt (lt_trans h1 (hhd kv h))
        rw [cntKey_eq_zero hz]
      · refine Or.inl ⟨h, ?_⟩
        rcases List.mem_cons.mp h with h' | h'
        · subst h'; exact ne_of_gt h1
        · exact ne_of_gt (lt_trans h1 (hhd kv h'))
    · rcases List.mem_cons.mp hkv with h | h
      · subst h
        exact Or.inl ⟨List.mem_cons_self _ _, ne_of_lt h2⟩
      · rcases ih htl kv h with ⟨hin, hne⟩ | ⟨hk, hv⟩
        · exact Or.inl ⟨List.mem_cons_of_mem _ hin, hne⟩
        · refine Or.inr ⟨hk, ?_⟩
          rw [cntKey_cons, if_neg (ne_of_lt h2), hv]
          omega
    · have hkk : k = k' := le_antisymm (le_of_not_lt h2) (le_of_not_lt h1)
      rcases List.mem_cons.mp hkv with h | h
      · subst h
        refine Or.inr ⟨hkk.symm, ?_⟩
        rw [cntKey_cons, if_pos hkk.symm]
        have hz : ∀ kv ∈ tl, kv.1 ≠ k := by
          intro kv hkv
          rw [hkk]
          exact ne_of_gt (hhd kv hkv)
        rw [cntKey_eq_zero hz]
      · refine Or.inl ⟨List.mem_cons_of_mem _ h, ?_⟩
        rw [hkk]
        exact ne_of_gt (hhd kv h)

lemma mapInsert_mem_of_ne (k : α) {m : List (α × Nat)} {kv : α × Nat}
    (h : kv ∈ m) (hne : kv.1 ≠ k) : kv ∈ mapInsert k m := by
  induction m with
  | nil => cases h
  | cons hd tl ih =>
    obtain ⟨k', n⟩ := hd
    simp only [mapInsert]
    split_ifs with h1 h2
    · exact List.mem_cons_of_mem _ h
    · rcases List.mem_cons.mp h with h' | h'
      · subst h'; exact List.mem_cons_self _ _
      · exact List.mem_cons_of_mem _ (ih h')
    · have hkk : k = k' := le_antisymm (le_of_not_lt h2) (le_of_not_lt h1)
      rcases List.mem_cons.mp h with h' | h'
      · exfalso; apply hne; rw [h', hkk]
      · exact List.mem_cons_of_mem _ h'

lemma mapInsert_exists_self (k : α) (m : List (α × Nat)) :
    ∃ n, (k, n) ∈ mapInsert k m := by
  induction m with
  | nil => exact ⟨1, by simp [mapInsert]⟩
  | cons hd tl ih =>
    obtain ⟨k', n⟩ := hd
    simp only [mapInsert]
    split_ifs with h1 h2
    · exact ⟨1, List.mem_cons_self _ _⟩
    · obtain ⟨n', hn'⟩ := ih
      exact ⟨n', List.mem_cons_of_mem _ hn'⟩
    · have hkk : k = k' := le_antisymm (le_of_not_lt h2) (le_of_not_lt h1)
      subst hkk
      exact ⟨n + 1, List.mem_cons_self _ _⟩

/-- Invariant tying the count map to the list of observations seen so far. -/
def WanInv [DecidableEq α] (m : List (α × Nat)) (seen : List α) : Prop :=
  m.Pairwise (fun a b => a.1 < b.1) ∧
  (∀ kv ∈ m, kv.1 ∈ seen ∧ kv.2 = seen.count kv.1) ∧
  (∀ k ∈ seen, ∃ n, (k, n) ∈ m)

lemma cntKey_eq_count [DecidableEq α] {m : List (α × Nat)} {seen : List α}
    (hinv : WanInv m seen) (k : α) : cntKey m k = seen.count k := by
  obtain ⟨hpw, hsound, hcomp⟩ := hinv
  by_cases hk : ∃ n, (k, n) ∈ m
  · obtain ⟨n, hn⟩ := hk
    rw [cntKey_eq_of_mem hpw hn]
    exact (hsound (k, n) hn).2
  · have hne : ∀ kv ∈ m, kv.1 ≠ k := by
      intro kv hkv hkk
      exact hk ⟨kv.2, by rw [← hkk]; exact hkv⟩
    rw [cntKey_eq_zero hne]
    by_cases hks : k ∈ seen
    · obtain ⟨n, hn⟩ := hcomp k hks
      exact absurd rfl (hne (k, n) hn)
    · exact (List.count_eq_zero.mpr hks).symm

lemma wanInv_step [DecidableEq α] {m : List (α × Nat)} {seen : List α}
    (hinv : WanInv m seen) (k : α) : WanInv (mapInsert k m) (seen ++ [k]) := by
  obtain ⟨hpw, hsound, hcomp⟩ := hinv
  refine ⟨mapInsert_pairwise k m hpw, ?_, ?_⟩
  · intro kv hkv
    rcases mapInsert_mem_cases k m hpw kv hkv with ⟨hin, hne⟩ | ⟨hk, hv⟩
    · obtain ⟨hmem, hcnt⟩ := hsound kv hin
      refine ⟨List.mem_append_left _ hmem, ?_⟩
      have hz : List.count kv.1 [k] = 0 :=
        List.count_eq_zero.mpr (by simp [hne])
      rw [List.count_append, hcnt, hz]
      omega
    · refine ⟨List.mem_append_right _
        (by rw [hk]; exact List.mem_singleton_self k), ?_⟩
      rw [hv, cntKey_eq_count ⟨hpw, hsound, hcomp⟩ k, hk, List.count_append]
      simp
  · intro k' hk'
    rcases List.mem_append.mp hk' with h | h
    · obtain ⟨n, hn⟩ := hcomp k' h
      by_cases hne : k' = k
      · subst hne
        exact mapInsert_exists_self k' m
      · exact ⟨n, mapInsert_mem_of_ne k hn hne⟩
    · rw [List.mem_singleton.mp h]
      exact mapInsert_exists_self k m

lemma wanInv_fold [DecidableEq α] :
    ∀ (l : List α) (m : List (α × Nat)) (seen : List α), WanInv m seen →
      WanInv (l.foldl (fun m k => mapInsert k m) m) (seen ++ l) := by
  intro l
  induction l with
  | nil => intro m seen h; simpa using h
  | cons k t ih =>
    intro m seen h
    have h1 := wanInv_step h k
    have h2 := ih (mapInsert k m) (seen ++ [k]) h1
    simpa using h2

lemma buildCounts_inv [DecidableEq α] (ring : List α) :
    WanInv (buildCounts ring) ring := by
  have h0 : WanInv ([] : List (α × Nat)) ([] : List α) := by
    refine ⟨List.Pairwise.nil, ?_, ?_⟩
    · intro kv hkv; cases hkv
    · intro k hk; cases hk
  have := wanInv_fold ring [] [] h0
  simpa [buildCounts] using this

end WanLemmas

section MaxEltLemmas

variable {α : Type} [LinearOrder α]

/-- `std::max_element` scan: the result is an element, bounds every count,
and — keys being strictly sorted — is the least key among tied maxima. -/
lemma foldMax_spec :
    ∀ (rest : List (α × Nat)) (best : α × Nat),
      ((best :: rest).Pairwise fun a b => a.1 < b.1) →
      (foldMax best rest = best ∨ foldMax best rest ∈ rest) ∧
      best.2 ≤ (foldMax best rest).2 ∧
      (∀ y ∈ rest, y.2 ≤ (foldMax best rest).2) ∧
      (∀ y ∈ best :: rest, (foldMax best rest).2 ≤ y.2 →
        (foldMax best rest).1 ≤ y.1) := by
  intro rest
  induction rest with
  | nil =>
    intro best _
    refine ⟨Or.inl rfl, le_refl _, ?_, ?_⟩
    · intro y hy; cases hy
    · intro y hy _
      rw [List.mem_singleton.mp hy]
      exact le_refl _
  | cons c t ih =>
    intro best hpw
    obtain ⟨hbest, htl⟩ := List.pairwise_cons.mp hpw
    obtain ⟨hc, htt⟩ := List.pairwise_cons.mp htl
    have hfold : foldMax best (c :: t) =
        foldMax (if best.2 < c.2 then c else best) t := rfl
    by_cases hbc : best.2 < c.2
    · have hpw2 : (c :: t).Pairwise fun a b : α × Nat => a.1 < b.1 := htl
      obtain ⟨h1, h2, h3, h4⟩ := ih c hpw2
      rw [hfold, if_pos hbc]
      refine ⟨?_, ?_, ?_, ?_⟩
      · rcases h1 with h | h
        · exact Or.inr (by rw [h]; exact List.mem_cons_self _ _)
        · exact Or.inr (List.mem_cons_of_mem _ h)
      · exact le_trans (le_of_lt hbc) h2
      · intro y hy
        rcases List.mem_cons.mp hy with h | h
        · rw [h]; exact h2
        · exact h3 y h
      · intro y hy hle
        rcases List.mem_cons.mp hy with h | h
        · exfalso
          rw [h] at hle
          exact absurd (lt_of_lt_of_le hbc h2) (not_lt.mpr hle)
        · exact h4 y h hle
    · have hpw2 : (best :: t).Pairwise fun a b : α × Nat => a.1 < b.1 := by
        refine List.pairwise_cons.mpr ⟨?_, htt⟩
        intro y hy
        exact hbest y (List.mem_cons_of_mem _ hy)
      obtain ⟨h1, h2, h3, h4⟩ := ih best hpw2
      rw [hfold, if_neg hbc]
      refine ⟨?_, h2, ?_, ?_⟩
      · rcases h1 with h | h
        · exact Or.inl h
        · exact Or.inr (List.mem_cons_of_mem _ h)
      · intro y hy
        rcases List.mem_cons.mp hy with h | h
        · rw [h]
          exact le_trans (le_of_not_lt hbc) h2
        · exact h3 y h
      · intro y hy hle
        rcases List.mem_cons.mp hy with h | h'
        · rw [h] at hle ⊢
          exact h4 best (List.mem_cons_self _ _) hle
        · rcases List.mem_cons.mp h' with h | h
          · rw [h]
            have hlebest : (foldMax best t).2 ≤ best.2 := by
              rw [h] at hle
              exact le_trans hle (le_of_not_lt hbc)
            have hkey : (foldMax best t).1 ≤ best.1 :=
              h4 best (List.mem_cons_self _ _) hlebest
            exact le_trans hkey (le_of_lt (hbest c (List.mem_cons_self _ _)))
          · exact h4 y (List.mem_cons_of_mem _ h) hle

/-- Specification of `maxElt` on a nonempty, key-sorted count map. -/
lemma maxElt_spec (x : α × Nat) (rest : List (α × Nat))
    (hm : ((x :: rest).Pairwise fun a b => a.1 < b.1)) :
    ∃ kv, maxElt (x :: rest) = some kv ∧ kv ∈ x :: rest ∧
      (∀ y ∈ x :: rest, y.2 ≤ kv.2) ∧
      (∀ y ∈ x :: rest, kv.2 ≤ y.2 → kv.1 ≤ y.1) := by
  obtain ⟨h1, h2, h3, h4⟩ := foldMax_spec rest x hm
  refine ⟨foldMax x rest, rfl, ?_, ?_, h4⟩
  · rcases h1 with h | h
    · rw [h]; exact List.mem_cons_self _ _
    · exact List.mem_cons_of_mem _ h
  · intro y hy
    rcases List.mem_cons.mp hy with h | h
    · rw [h]; exact h2
    · exact h3 y h

end MaxEltLemmas

section WanTheorems

variable {α : Type} [LinearOrder α] [DecidableEq α]

/-- Core property of the majority branch of
`update_wan_status_from_history`: when no `DOWN` is in the trimmed ring and
it holds at least two observations, the emitted status is an element of the
ring of maximal multiplicity, and it is the least such element. -/
lemma update_wan_mode (down : α) (ring : List α) (wan s : α)
    (hdown : down ∉ pushRing 3 ring s)
    (hlen : 2 ≤ (pushRing 3 ring s).length) :
    (update_wan_status_from_history down ring wan s).2 ∈ pushRing 3 ring s ∧
    (∀ x ∈ pushRing 3 ring s,
      (pushRing 3 ring s).count x ≤
        (pushRing 3 ring s).count
          (update_wan_status_from_history down ring wan s).2) ∧
    (∀ x ∈ pushRing 3 ring s,
      (pushRing 3 ring s).count
          (update_wan_status_from_history down ring wan s).2 ≤
        (pushRing 3 ring s).count x →
      (update_wan_status_from_history down ring wan s).2 ≤ x) := by
  set r := pushRing 3 ring s with hrdef
  have hany : (r.any fun x => x = down) = false := by
    simp only [List.any_eq_false, decide_eq_true_eq]
    intro x hx hxd
    exact hdown (hxd ▸ hx)
  obtain ⟨hpw, hsound, hcomp⟩ := buildCounts_inv (α := α) r
  have hne : r ≠ [] := by
    intro h
    rw [h] at hlen
    simp at hlen
  obtain ⟨a, r', har⟩ := List.exists_cons_of_ne_nil hne
  cases hbc : buildCounts r with
  | nil =>
    exfalso
    obtain ⟨n, hn⟩ := hcomp a (by rw [har]; exact List.mem_cons_self _ _)
    rw [hbc] at hn
    cases hn
  | cons x rest =>
    have hpw2 : ((x :: rest).Pairwise fun a b : α × Nat => a.1 < b.1) := by
      rw [← hbc]; exact hpw
    obtain ⟨kv, hmax, hkmem, hbound, hkey⟩ := maxElt_spec x rest hpw2
    have hkv : kv ∈ buildCounts r := by rw [hbc]; exact hkmem
    obtain ⟨hkv1, hkv2⟩ := hsound kv hkv
    have hst : (update_wan_status_from_history down ring wan s).2 = kv.1 := by
      simp only [update_wan_status_from_history]
      rw [← hrdef, hany]
      simp only [Bool.false_eq_true, if_false]
      rw [if_pos hlen, hbc, hmax]
    rw [hst]
    refine ⟨hkv1, ?_, ?_⟩
    · intro x' hx'
      obtain ⟨n, hn⟩ := hcomp x' hx'
      have hcn : n = r.count x' := (hsound (x', n) hn).2
      have hyb : (x', n) ∈ x :: rest := by rw [← hbc]; exact hn
      have hb2 : n ≤ kv.2 := hbound (x', n) hyb
      calc List.count x' r = n := hcn.symm
        _ ≤ kv.2 := hb2
        _ = List.count kv.1 r := hkv2
    · intro x' hx' hcle
      obtain ⟨n, hn⟩ := hcomp x' hx'
      have hcn : n = r.count x' := (hsound (x', n) hn).2
      have hyb : (x', n) ∈ x :: rest := by rw [← hbc]; exact hn
      apply hkey (x', n) hyb
      show kv.2 ≤ n
      calc kv.2 = List.count kv.1 r := hkv2
        _ ≤ List.count x' r := hcle
        _ = n := hcn.symm

/-- C5: after pushing the raw observation into the capacity-3 ring, if any
kept observation is `DOWN` the status is `DOWN`; otherwise with at least two
observations the status is a most frequent observation of the ring; with a
single observation it is that observation. -/
theorem wan_stabilization (down : α) (ring : List α) (wan s : α) :
    (down ∈ pushRing 3 ring s →
      (update_wan_status_from_history down ring wan s).2 = down) ∧
    (down ∉ pushRing 3 ring s → 2 ≤ (pushRing 3 ring s).length →
      (update_wan_status_from_history down ring wan s).2 ∈ pushRing 3 ring s ∧
      ∀ x ∈ pushRing 3 ring s,
        (pushRing 3 ring s).count x ≤
          (pushRing 3 ring s).count
            (update_wan_status_from_history down ring wan s).2) ∧
    (down ∉ pushRing 3 ring s → (pushRing 3 ring s).length < 2 →
      (update_wan_status_from_history down ring wan s).2 = s) := by
  refine ⟨?_, ?_, ?_⟩
  · intro hdown
    have hany : (pushRing 3 ring s).any (fun x => x = down) = true := by
      simp only [List.any_eq_true, decide_eq_true_eq]
      exact ⟨down, hdown, rfl⟩
    simp only [update_wan_status_from_history]
    rw [hany]
    simp
  · intro hdown hlen
    exact ⟨(update_wan_mode down ring wan s hdown hlen).1,
      (update_wan_mode down ring wan s hdown hlen).2.1⟩
  · intro hdown hlen
    have hany : ((pushRing 3 ring s).any fun x => x = down) = false := by
      simp only [List.any_eq_false, decide_eq_true_eq]
      intro x hx hxd
      exact hdown (hxd ▸ hx)
    simp only [update_wan_status_from_history]
    rw [hany]
    simp only [Bool.false_eq_true, if_false, if_neg (not_le.mpr hlen)]

/-- C5 witness: ring `[2, 2]` plus observation `1` (no `DOWN = 0` present):
the status is a mode of `[2, 2, 1]`. -/
theorem wan_stabilization_witness :
    (update_wan_status_from_history (0 : ℕ) [2, 2] 5 1).2 ∈
      pushRing 3 [2, 2] 1 ∧
    ∀ x ∈ pushRing 3 ([2, 2] : List ℕ) 1,
      (pushRing 3 [2, 2] 1).count x ≤
        (pushRing 3 [2, 2] 1).count
          (update_wan_status_from_history (0 : ℕ) [2, 2] 5 1).2 :=
  (wan_stabilization 0 [2, 2] 5 1).2.1 (by decide) (by decide)

/-- C10: when the trimmed ring holds no `DOWN` and at least two
observations, the emitted status is the least (for strings: the
lexicographically smallest) among the observations whose multiplicity ties
the maximum. -/
theorem wan_tiebreak (down : α) (ring : List α) (wan s : α)
    (hdown : down ∉ pushRing 3 ring s)
    (hlen : 2 ≤ (pushRing 3 ring s).length) :
    ∀ x ∈ pushRing 3 ring s,
      (pushRing 3 ring s).count x =
        (pushRing 3 ring s).count
          (update_wan_status_from_history down ring wan s).2 →
      (update_wan_status_from_history down ring wan s).2 ≤ x := by
  intro x hx hcnt
  exact (update_wan_mode down ring wan s hdown hlen).2.2 x hx (le_of_eq hcnt.symm)

/-- C10 witness: ring `[2]` plus observation `1` gives the tie `{1, 2}`
with all counts `1`; the reported status is at most the tied element `2`. -/
theorem wan_tiebreak_witness :
    (update_wan_status_from_history (0 : ℕ) [2] 5 1).2 ≤ 2 :=
  wan_tiebreak 0 [2] 5 1 (by decide) (by decide) 2 (by decide) (by decide)

end WanTheorems

/-! ### Rectangle upload byte stream (src/ILI9488.cpp, ILI9488::UpdateRect)

The clip is `x0 = max(0,x); y0 = max(0,y); x1 = min(W, x+w); y1 = min(H, y+h)`
with an early return for `w ≤ 0`, `h ≤ 0` or an empty clip.  For each of the
`rh` rows the row segment of `rw` pixels is sent in chunks of
`chunk_pixels = max(1, chunk_size_bytes / 3)` pixels, each RGB565 pixel
expanded to three bytes `{r5 << 3, g6 << 2, b5 << 3}` with
`r5 = (px >> 11) & 0x1F`, `g6 = (px >> 5) & 0x3F`, `b5 = px & 0x1F`;
the row source starts at `rgb565 + (y0 + row) * stride_pixels + x0`. -/

def rgb666 (px : Nat) : List Nat :=
  [px / 2 ^ 11 % 32 * 2 ^ 3, px / 2 ^ 5 % 64 * 2 ^ 2, px % 32 * 2 ^ 3]

/-- The inner per-chunk conversion loop: `cnt` pixels starting at linear
index `base` of the source buffer, three bytes each, in order. -/
def emitPixels (buf : Nat → Nat) (base cnt : Nat) : List Nat :=
  (List.range cnt).flatMap fun i => rgb666 (buf (base + i))

/-- The `while (remaining > 0)` chunk loop of `UpdateRect`, with explicit
fuel (the loop consumes at least one pixel per iteration, so `remaining`
iterations always suffice). -/
def chunkRowAux (buf : Nat → Nat) (cp : Nat) : Nat → Nat → Nat → List Nat
  | 0, _, _ => []
  | fuel + 1, base, remaining =>
    if remaining = 0 then []
    else
      emitPixels buf base (min cp remaining) ++
        chunkRowAux buf cp fuel (base + min cp remaining)
          (remaining - min cp remaining)

def chunkRow (buf : Nat → Nat) (cp base remaining : Nat) : List Nat :=
  chunkRowAux buf cp remaining base remaining

/-- `ILI9488::UpdateRect`: concatenation of all pixel chunks sent after
`RAMWR`, from the supplied RGB565 buffer (`stride` in pixels). -/
def updateRectStream (W H : Nat) (x y w h : Int) (buf : Nat → Nat)
    (stride chunkBytes : Nat) : List Nat :=
  if w ≤ 0 ∨ h ≤ 0 then []
  else
    let x0 : Int := max 0 x
    let y0 : Int := max 0 y
    let x1 : Int := min (W : Int) (x + w)
    let y1 : Int := min (H : Int) (y + h)
    if x1 ≤ x0 ∨ y1 ≤ y0 then []
    else
      let rwid := (x1 - x0).toNat
      let rhgt := (y1 - y0).toNat
      let cp := max 1 (chunkBytes / 3)
      (List.range rhgt).flatMap fun row =>
        chunkRow buf cp ((y0.toNat + row) * stride + x0.toNat) rwid

/-- Row-major per-pixel byte stream of a clipped rectangle: the i-th pixel
comes from row `y0 + i / rw`, column `x0 + i % rw` of the supplied buffer. -/
def rectPixelStream (buf : Nat → Nat) (stride x0 y0 rwid rhgt : Nat) :
    List Nat :=
  (List.range (rhgt * rwid)).flatMap fun i =>
    rgb666 (buf ((y0 + i / rwid) * stride + (x0 + i % rwid)))

lemma emitPixels_length (buf : Nat → Nat) (base cnt : Nat) :
    (emitPixels buf base cnt).length = 3 * cnt := by
  unfold emitPixels
  induction cnt with
  | zero => simp
  | succ n ih =>
    rw [List.range_succ, List.flatMap_append, List.length_append, ih]
    simp only [List.flatMap_cons, List.flatMap_nil, List.append_nil, rgb666,
      List.length_cons, List.length_nil]
    omega

lemma flatMap_congr_mem {β : Type} (l : List Nat) (f g : Nat → List β)
    (h : ∀ a ∈ l, f a = g a) : l.flatMap f = l.flatMap g := by
  induction l with
  | nil => rfl
  | cons hd tl ih =>
    rw [List.flatMap_cons, List.flatMap_cons,
      h hd (List.mem_cons_self _ _),
      ih fun a ha => h a (List.mem_cons_of_mem _ ha)]

lemma flatMap_range_add {β : Type} (f : Nat → List β) (a b : Nat) :
    (List.range (a + b)).flatMap f =
      (List.range a).flatMap f ++
        (List.range b).flatMap fun i => f (a + i) := by
  rw [List.range_add, List.flatMap_append, List.flatMap_map]

lemma emitPixels_split (buf : Nat → Nat) (base t r : Nat) (ht : t ≤ r) :
    emitPixels buf base r =
      emitPixels buf base t ++ emitPixels buf (base + t) (r - t) := by
  unfold emitPixels
  calc (List.range r).flatMap (fun i => rgb666 (buf (base + i)))
      = (List.range (t + (r - t))).flatMap
          (fun i => rgb666 (buf (base + i))) := by
        rw [Nat.add_sub_cancel' ht]
    _ = (List.range t).flatMap (fun i => rgb666 (buf (base + i))) ++
        (List.range (r - t)).flatMap
          (fun i => rgb666 (buf (base + (t + i)))) :=
        flatMap_range_add _ t (r - t)
    _ = (List.range t).flatMap (fun i => rgb666 (buf (base + i))) ++
        (List.range (r - t)).flatMap
          (fun i => rgb666 (buf (base + t + i))) := by
        congr 1
        apply flatMap_congr_mem
        intro i _
        have harith : base + (t + i) = base + t + i := by omega
        rw [harith]

lemma chunkRowAux_eq (buf : Nat → Nat) (cp : Nat) (hcp : 1 ≤ cp) :
    ∀ fuel base remaining, remaining ≤ fuel →
      chunkRowAux buf cp fuel base remaining = emitPixels buf base remaining := by
  intro fuel
  induction fuel with
  | zero =>
    intro base remaining hr
    have : remaining = 0 := by omega
    subst this
    simp [chunkRowAux, emitPixels]
  | succ n ih =>
    intro base remaining hr
    by_cases h0 : remaining = 0
    · subst h0
      simp [chunkRowAux, emitPixels]
    · have hmin1 : 1 ≤ min cp remaining := by omega
      rw [chunkRowAux, if_neg h0,
        ih (base + min cp remaining) (remaining - min cp remaining) (by omega)]
      exact (emitPixels_split buf base (min cp remaining) remaining
        (min_le_right _ _)).symm

lemma chunkRow_eq (buf : Nat → Nat) (cp base remaining : Nat) (hcp : 1 ≤ cp) :
    chunkRow buf cp base remaining = emitPixels buf base remaining :=
  chunkRowAux_eq buf cp hcp remaining base remaining (le_refl _)

lemma range_mul_flatMap {β : Type} (g : Nat → List β) :
    ∀ rhgt rwid, (List.range (rhgt * rwid)).flatMap g =
      (List.range rhgt).flatMap fun row =>
        (List.range rwid).flatMap fun col => g (row * rwid + col) := by
  intro rhgt
  induction rhgt with
  | zero => intro rwid; simp
  | succ n ih =>
    intro rwid
    have hmul : (n + 1) * rwid = n * rwid + rwid := by ring
    rw [hmul, List.range_add, List.flatMap_append, ih rwid, List.range_succ,
      List.flatMap_append, List.flatMap_map]
    simp only [List.flatMap_cons, List.flatMap_nil, List.append_nil]

lemma flatMap_rgb666_length (e : Nat → Nat) (n : Nat) :
    ((List.range n).flatMap fun i => rgb666 (e i)).length = 3 * n := by
  induction n with
  | zero => simp
  | succ m ih =>
    rw [List.range_succ, List.flatMap_append, List.length_append, ih]
    simp only [List.flatMap_cons, List.flatMap_nil, List.append_nil, rgb666,
      List.length_cons, List.length_nil]
    omega

/-- C4: for every `UpdateRect` call with a non-empty clipped rectangle
(`rw × rh` pixels at `(x0, y0)`), the concatenation of the pixel chunks sent
after `RAMWR` is exactly the row-major stream in which the i-th pixel's
three bytes are `{R5<<3, G6<<2, B5<<3}` of the RGB565 pixel at row
`y0 + i / rw`, column `x0 + i % rw` of the supplied buffer (row stride as
supplied, in pixels), and its total length is `3 * (rw * rh)` bytes. -/
theorem updateRect_stream_bytes (W H : Nat) (x y w h : Int) (buf : Nat → Nat)
    (stride chunkBytes : Nat) (hw : 0 < w) (hh : 0 < h)
    (hx : max 0 x < min (W : Int) (x + w))
    (hy : max 0 y < min (H : Int) (y + h)) :
    updateRectStream W H x y w h buf stride chunkBytes =
      rectPixelStream buf stride (max 0 x).toNat (max 0 y).toNat
        (min (W : Int) (x + w) - max 0 x).toNat
        (min (H : Int) (y + h) - max 0 y).toNat ∧
    (updateRectStream W H x y w h buf stride chunkBytes).length =
      3 * ((min (W : Int) (x + w) - max 0 x).toNat *
        (min (H : Int) (y + h) - max 0 y).toNat) := by
  set x0n := (max 0 x).toNat with hx0
  set y0n := (max 0 y).toNat with hy0
  set rwid := (min (W : Int) (x + w) - max 0 x).toNat with hrwid
  set rhgt := (min (H : Int) (y + h) - max 0 y).toNat with hrhgt
  have hnw : ¬(w ≤ 0 ∨ h ≤ 0) := by push_neg; exact ⟨hw, hh⟩
  have hne : ¬(min (W : Int) (x + w) ≤ max 0 x ∨
      min (H : Int) (y + h) ≤ max 0 y) := by
    push_neg; exact ⟨hx, hy⟩
  have hcp : 1 ≤ max 1 (chunkBytes / 3) := le_max_left _ _
  have hrwpos : 0 < rwid := by
    rw [hrwid]
    omega
  have hred : updateRectStream W H x y w h buf stride chunkBytes =
      (List.range rhgt).flatMap fun row =>
        chunkRow buf (max 1 (chunkBytes / 3))
          ((y0n + row) * stride + x0n) rwid := by
    simp only [updateRectStream]
    rw [if_neg hnw, if_neg hne]
  have hmain : updateRectStream W H x y w h buf stride chunkBytes =
      rectPixelStream buf stride x0n y0n rwid rhgt := by
    rw [hred]
    unfold rectPixelStream
    rw [range_mul_flatMap]
    apply flatMap_congr_mem
    intro row _
    rw [chunkRow_eq buf _ _ _ hcp]
    unfold emitPixels
    apply flatMap_congr_mem
    intro col hcol
    have hcl : col < rwid := List.mem_range.mp hcol
    have hdiv : (row * rwid + col) / rwid = row := by
      rw [Nat.mul_comm row rwid, Nat.mul_add_div hrwpos,
        Nat.div_eq_of_lt hcl]
      omega
    have hmod : (row * rwid + col) % rwid = col := by
      rw [Nat.mul_comm row rwid, Nat.mul_add_mod, Nat.mod_eq_of_lt hcl]
    rw [hdiv, hmod]
    have harith : (y0n + row) * stride + x0n + col =
        (y0n + row) * stride + (x0n + col) := by omega
    rw [harith]
  refine ⟨hmain, ?_⟩
  rw [hmain]
  unfold rectPixelStream
  rw [flatMap_rgb666_length]
  ring

/-- C4 witness: a `2 × 2` rectangle at the origin of a `4 × 4` display,
stride 4, chunk size 6 bytes (two pixels per chunk). -/
theorem updateRect_stream_bytes_witness :
    (updateRectStream 4 4 0 0 2 2 (fun i => i) 4 6 =
      rectPixelStream (fun i => i) 4 (max 0 (0 : Int)).toNat
        (max 0 (0 : Int)).toNat
        (min (4 : Int) (0 + 2) - max 0 0).toNat
        (min (4 : Int) (0 + 2) - max 0 0).toNat ∧
    (updateRectStream 4 4 0 0 2 2 (fun i => i) 4 6).length =
      3 * ((min (4 : Int) (0 + 2) - max 0 0).toNat *
        (min (4 : Int) (0 + 2) - max 0 0).toNat)) :=
  updateRect_stream_bytes 4 4 0 0 2 2 (fun i => i) 4 6 (by decide) (by decide)
    (by decide) (by decide)

/-! ### Dirty-tile differ (src/main.cpp)

`compute_dirty_tiles` marks a tile dirty when `memcmp` finds a differing row
segment; `build_rects_from_tiles` scans tiles in row-major order, flood-fills
each unvisited dirty tile over 4-neighbors with an explicit stack
(`push_back`/`back`/`pop_back`), records the bounding box of all popped
tiles, and emits the box scaled by the tile size, clipped to the screen.
The C++ `while (!stack.empty())` loop is modeled with explicit fuel; each
iteration either pops one entry or marks a new tile visited, so
`2 * (#tiles) + 1` iterations always suffice (proved below). -/

def tilesDim (n T : Nat) : Nat := (n + T - 1) / T

def rowDiffers (cur prev : Nat → Nat → Nat) (y x0 x1 : Nat) : Bool :=
  (List.range (x1 - x0)).any fun i => cur (x0 + i) y ≠ prev (x0 + i) y

def tileDirty (cur prev : Nat → Nat → Nat) (W H T tx ty : Nat) : Bool :=
  let y0 := ty * T
  let y1 := min (y0 + T) H
  let x0 := tx * T
  let x1 := min (x0 + T) W
  (List.range (y1 - y0)).any fun j => rowDiffers cur prev (y0 + j) x0 x1

def compute_dirty_tiles (cur prev : Nat → Nat → Nat) (W H T : Nat) :
    Nat → Bool :=
  fun idx => tileDirty cur prev W H T (idx % tilesDim W T) (idx / tilesDim W T)

def dirty_tiles_count (cur prev : Nat → Nat → Nat) (W H T : Nat) : Nat :=
  ((List.range (tilesDim H T * tilesDim W T)).filter
    (compute_dirty_tiles cur prev W H T)).length

structure Rect where
  x : Nat
  y : Nat
  w : Nat
  h : Nat
deriving DecidableEq

structure BBox where
  minTx : Nat
  maxTx : Nat
  minTy : Nat
  maxTy : Nat
deriving DecidableEq

/-- `min_tx/max_tx/min_ty/max_ty` update on popping tile `(cx, cy)`. -/
def extendB (b : BBox) (cx cy : Nat) : BBox :=
  ⟨min b.minTx cx, max b.maxTx cx, min b.minTy cy, max b.maxTy cy⟩

/-- In-bounds 4-neighbors of tile `(cx, cy)`, in the order of the
`nx/ny` arrays, with the `xx < 0 || yy < 0 || xx >= tiles_x || yy >= tiles_y`
bounds checks. -/
def nbrList (tilesX tilesY cx cy : Nat) : List Nat :=
  (if cx + 1 < tilesX ∧ cy < tilesY then [cy * tilesX + (cx + 1)] else []) ++
    (if 1 ≤ cx ∧ cx - 1 < tilesX ∧ cy < tilesY then [cy * tilesX + (cx - 1)]
      else []) ++
    (if cx < tilesX ∧ cy + 1 < tilesY then [(cy + 1) * tilesX + cx] else []) ++
    (if cx < tilesX ∧ 1 ≤ cy ∧ cy - 1 < tilesY then [(cy - 1) * tilesX + cx]
      else [])

/-- `if (dirty[nidx] && !visited[nidx]) push(nidx)`. -/
def pushNbr (dirty : Nat → Bool) (st : Finset Nat × List Nat) (n : Nat) :
    Finset Nat × List Nat :=
  if dirty n = true ∧ n ∉ st.1 then (insert n st.1, n :: st.2) else st

def pushAllNbrs (dirty : Nat → Bool) (st : Finset Nat × List Nat)
    (l : List Nat) : Finset Nat × List Nat :=
  l.foldl (pushNbr dirty) st

/-- The flood-fill loop body: pop the stack top, extend the bounding box,
push the unvisited dirty neighbors. -/
def floodStep (dirty : Nat → Bool) (tilesX tilesY : Nat) :
    Nat → Finset Nat → List Nat → BBox → Finset Nat × List Nat × BBox
  | 0, visited, stack, bbox => (visited, stack, bbox)
  | _ + 1, visited, [], bbox => (visited, [], bbox)
  | fuel + 1, visited, cur :: rest, bbox =>
    let cx := cur % tilesX
    let cy := cur / tilesX
    let st := pushAllNbrs dirty (visited, rest) (nbrList tilesX tilesY cx cy)
    floodStep dirty tilesX tilesY fuel st.1 st.2 (extendB bbox cx cy)

/-- Rectangle of a component bounding box, scaled by the tile size and
clipped to the screen (`if (r.x + r.w > width) r.w = width - r.x;` etc.). -/
def rectOfBBox (W H T : Nat) (b : BBox) : Rect :=
  let rx := b.minTx * T
  let ry := b.minTy * T
  let w0 := (b.maxTx - b.minTx + 1) * T
  let h0 := (b.maxTy - b.minTy + 1) * T
  ⟨rx, ry, if W < rx + w0 then W - rx else w0,
    if H < ry + h0 then H - ry else h0⟩

/-- Body of the row-major scan over tiles: start a flood fill on each
unvisited dirty tile and append the resulting rectangle. -/
def outerStep (W H T tilesX tilesY : Nat) (dirty : Nat → Bool)
    (st : Finset Nat × List Rect) (idx : Nat) : Finset Nat × List Rect :=
  if dirty idx = true ∧ idx ∉ st.1 then
    let tx := idx % tilesX
    let ty := idx / tilesX
    let fl := floodStep dirty tilesX tilesY (2 * (tilesX * tilesY) + 1)
      (insert idx st.1) [idx] ⟨tx, tx, ty, ty⟩
    (fl.1, st.2 ++ [rectOfBBox W H T fl.2.2])
  else st

def build_rects_from_tiles (W H T : Nat) (dirty : Nat → Bool) : List Rect :=
  ((List.range (tilesDim H T * tilesDim W T)).foldl
    (outerStep W H T (tilesDim W T) (tilesDim H T) dirty)
    (∅, [])).2

def inRect (r : Rect) (x y : Nat) : Prop :=
  r.x ≤ x ∧ x < r.x + r.w ∧ r.y ≤ y ∧ y < r.y + r.h

instance (r : Rect) (x y : Nat) : Decidable (inRect r x y) := by
  unfold inRect
  infer_instance

def inBBox (b : BBox) (cx cy : Nat) : Prop :=
  b.minTx ≤ cx ∧ cx ≤ b.maxTx ∧ b.minTy ≤ cy ∧ cy ≤ b.maxTy

def bboxLe (a b : BBox) : Prop :=
  b.minTx ≤ a.minTx ∧ a.maxTx ≤ b.maxTx ∧ b.minTy ≤ a.minTy ∧
    a.maxTy ≤ b.maxTy

/-- The differ decision of the main loop (src/main.cpp, lines 225-243):
no tiles dirty → nothing is sent; dirty ratio above the threshold or too
many rectangles → full frame; otherwise the rectangle list is sent. -/
inductive DifferDecision where
  | noSend
  | fullFrame
  | sendRects (rects : List Rect)
deriving DecidableEq

def differDecision (cur prev : Nat → Nat → Nat) (W H T maxRects : Nat)
    (threshold : ℚ) : DifferDecision :=
  let dirty := compute_dirty_tiles cur prev W H T
  let cnt := dirty_tiles_count cur prev W H T
  if 0 < cnt then
    let rects := build_rects_from_tiles W H T dirty
    let screen : Nat := W * H
    let area : Nat := (rects.map fun r => r.w * r.h).sum
    let frac : ℚ := if 0 < screen then (area : ℚ) / (screen : ℚ) else 1
    if threshold < frac ∨ maxRects < rects.length then .fullFrame
    else .sendRects rects
  else .noSend

/-! Support lemmas for the flood fill. -/

def tdMeasure (total : Nat) (visited : Finset Nat) (stack : List Nat) : Nat :=
  2 * ((Finset.range total) \ visited).card + stack.length

lemma nbrList_lt (tilesX tilesY cx cy : Nat) :
    ∀ n ∈ nbrList tilesX tilesY cx cy, n < tilesX * tilesY := by
  intro n hn
  unfold nbrList at hn
  simp only [List.mem_append] at hn
  have key : ∀ a b : Nat, a < tilesY → b < tilesX → a * tilesX + b <
      tilesX * tilesY := by
    intro a b ha hb
    have h1 : (a + 1) * tilesX ≤ tilesY * tilesX :=
      Nat.mul_le_mul_right _ (by omega)
    have h2 : (a + 1) * tilesX = a * tilesX + tilesX := by ring
    have h3 : tilesY * tilesX = tilesX * tilesY := by ring
    omega
  rcases hn with ((h | h) | h) | h
  · split_ifs at h with hc
    · rw [List.mem_singleton.mp h]
      exact key cy (cx + 1) hc.2 hc.1
    · cases h
  · split_ifs at h with hc
    · rw [List.mem_singleton.mp h]
      exact key cy (cx - 1) hc.2.2 hc.2.1
    · cases h
  · split_ifs at h with hc
    · rw [List.mem_singleton.mp h]
      exact key (cy + 1) cx hc.2 hc.1
    · cases h
  · split_ifs at h with hc
    · rw [List.mem_singleton.mp h]
      exact key (cy - 1) cx hc.2.2 hc.1
    · cases h

lemma pushNbr_cases (dirty : Nat → Bool) (st : Finset Nat × List Nat)
    (n : Nat) :
    pushNbr dirty st n = st ∨
      (n ∉ st.1 ∧ pushNbr dirty st n = (insert n st.1, n :: st.2)) := by
  unfold pushNbr
  split_ifs with h
  · exact Or.inr ⟨h.2, rfl⟩
  · exact Or.inl rfl

lemma pushAll_visited_sub (dirty : Nat → Bool) :
    ∀ (l : List Nat) (st : Finset Nat × List Nat),
      st.1 ⊆ (pushAllNbrs dirty st l).1 := by
  intro l
  induction l with
  | nil => intro st; exact fun x hx => hx
  | cons n t ih =>
    intro st
    have hstep : st.1 ⊆ (pushNbr dirty st n).1 := by
      rcases pushNbr_cases dirty st n with h | ⟨hn, h⟩
      · rw [h]
      · rw [h]
        exact Finset.subset_insert _ _
    exact fun x hx => ih (pushNbr dirty st n) (hstep hx)

lemma pushAll_stack_sub (dirty : Nat → Bool) :
    ∀ (l : List Nat) (st : Finset Nat × List Nat) (x : Nat),
      x ∈ st.2 → x ∈ (pushAllNbrs dirty st l).2 := by
  intro l
  induction l with
  | nil => intro st x hx; exact hx
  | cons n t ih =>
    intro st x hx
    apply ih (pushNbr dirty st n)
    rcases pushNbr_cases dirty st n with h | ⟨hn, h⟩
    · rw [h]; exact hx
    · rw [h]; exact List.mem_cons_of_mem _ hx

lemma pushAll_new_mem (dirty : Nat → Bool) :
    ∀ (l : List Nat) (st : Finset Nat × List Nat) (i : Nat),
      i ∈ (pushAllNbrs dirty st l).1 →
      i ∈ st.1 ∨ i ∈ (pushAllNbrs dirty st l).2 := by
  intro l
  induction l with
  | nil => intro st i hi; exact Or.inl hi
  | cons n t ih =>
    intro st i hi
    rcases ih (pushNbr dirty st n) i hi with h | h
    · rcases pushNbr_cases dirty st n with hc | ⟨hn, hc⟩
      · rw [hc] at h; exact Or.inl h
      · rw [hc] at h
        rcases Finset.mem_insert.mp h with h' | h'
        · refine Or.inr (pushAll_stack_sub dirty t (pushNbr dirty st n) i ?_)
          rw [hc, h']
          exact List.mem_cons_self _ _
        · exact Or.inl h'
    · exact Or.inr h

lemma pushAll_stack_from (dirty : Nat → Bool) :
    ∀ (l : List Nat) (st : Finset Nat × List Nat) (i : Nat),
      i ∈ (pushAllNbrs dirty st l).2 → i ∈ st.2 ∨ i ∈ l := by
  intro l
  induction l with
  | nil => intro st i hi; exact Or.inl hi
  | cons n t ih =>
    intro st i hi
    rcases ih (pushNbr dirty st n) i hi with h | h
    · rcases pushNbr_cases dirty st n with hc | ⟨hn, hc⟩
      · rw [hc] at h; exact Or.inl h
      · rw [hc] at h
        rcases List.mem_cons.mp h with h' | h'
        · subst h'
          exact Or.inr (List.mem_cons_self _ _)
        · exact Or.inl h'
    · exact Or.inr (List.mem_cons_of_mem _ h)

lemma pushNbr_measure (dirty : Nat → Bool) (total : Nat)
    (st : Finset Nat × List Nat) (n : Nat) (hn : n < total) :
    tdMeasure total (pushNbr dirty st n).1 (pushNbr dirty st n).2 ≤
      tdMeasure total st.1 st.2 := by
  rcases pushNbr_cases dirty st n with h | ⟨hmem, h⟩
  · rw [h]
  · rw [h]
    unfold tdMeasure
    have hin : n ∈ Finset.range total \ st.1 :=
      Finset.mem_sdiff.mpr ⟨Finset.mem_range.mpr hn, hmem⟩
    have hsd : Finset.range total \ insert n st.1 =
        (Finset.range total \ st.1).erase n := by
      ext a
      simp only [Finset.mem_sdiff, Finset.mem_insert, Finset.mem_erase]
      tauto
    rw [hsd, Finset.card_erase_of_mem hin]
    have hpos : 0 < (Finset.range total \ st.1).card :=
      Finset.card_pos.mpr ⟨n, hin⟩
    simp only [List.length_cons]
    omega

lemma pushAll_measure (dirty : Nat → Bool) (total : Nat) :
    ∀ (l : List Nat) (st : Finset Nat × List Nat),
      (∀ n ∈ l, n < total) →
      tdMeasure total (pushAllNbrs dirty st l).1 (pushAllNbrs dirty st l).2 ≤
        tdMeasure total st.1 st.2 := by
  intro l
  induction l with
  | nil => intro st _; exact le_refl _
  | cons n t ih =>
    intro st hl
    calc tdMeasure total (pushAllNbrs dirty (pushNbr dirty st n) t).1
          (pushAllNbrs dirty (pushNbr dirty st n) t).2 ≤
        tdMeasure total (pushNbr dirty st n).1 (pushNbr dirty st n).2 :=
          ih (pushNbr dirty st n) fun m hm => hl m (List.mem_cons_of_mem _ hm)
      _ ≤ tdMeasure total st.1 st.2 :=
          pushNbr_measure dirty total st n (hl n (List.mem_cons_self _ _))

lemma bboxLe_refl (b : BBox) : bboxLe b b := by
  unfold bboxLe
  omega

lemma bboxLe_trans {a b c : BBox} (h1 : bboxLe a b) (h2 : bboxLe b c) :
    bboxLe a c := by
  unfold bboxLe at *
  omega

lemma bboxLe_extend (b : BBox) (cx cy : Nat) : bboxLe b (extendB b cx cy) := by
  unfold bboxLe extendB
  simp only
  omega

lemma inBBox_mono {a b : BBox} (h : bboxLe a b) {cx cy : Nat}
    (hin : inBBox a cx cy) : inBBox b cx cy := by
  unfold bboxLe at h
  unfold inBBox at *
  omega

lemma inBBox_extend (b : BBox) (cx cy : Nat) : inBBox (extendB b cx cy) cx cy := by
  unfold inBBox extendB
  simp only
  omega

/-- Full specification of the flood-fill loop, by induction on the fuel:
given enough fuel the stack is fully drained; the bounding box only grows,
covers every tile that was on the stack, and covers every newly visited
tile; the visited set only grows. -/
lemma floodStep_spec (dirty : Nat → Bool) (tilesX tilesY : Nat) :
    ∀ (fuel : Nat) (visited : Finset Nat) (stack : List Nat) (bbox : BBox),
      tdMeasure (tilesX * tilesY) visited stack ≤ fuel →
      (∀ i ∈ stack, i < tilesX * tilesY) →
      (floodStep dirty tilesX tilesY fuel visited stack bbox).2.1 = [] ∧
      bboxLe bbox
        (floodStep dirty tilesX tilesY fuel visited stack bbox).2.2 ∧
      (∀ i ∈ stack,
        inBBox (floodStep dirty tilesX tilesY fuel visited stack bbox).2.2
          (i % tilesX) (i / tilesX)) ∧
      visited ⊆ (floodStep dirty tilesX tilesY fuel visited stack bbox).1 ∧
      (∀ i ∈ (floodStep dirty tilesX tilesY fuel visited stack bbox).1,
        i ∉ visited →
        inBBox (floodStep dirty tilesX tilesY fuel visited stack bbox).2.2
          (i % tilesX) (i / tilesX)) := by
  intro fuel
  induction fuel with
  | zero =>
    intro visited stack bbox hfuel hstk
    have hlen : stack.length = 0 := by
      unfold tdMeasure at hfuel
      omega
    have hs : stack = [] := List.length_eq_zero.mp hlen
    subst hs
    refine ⟨rfl, bboxLe_refl bbox, ?_, Finset.Subset.refl _, ?_⟩
    · intro i hi; cases hi
    · intro i hi hni
      exact absurd hi hni
  | succ n ih =>
    intro visited stack bbox hfuel hstk
    cases stack with
    | nil =>
      refine ⟨rfl, bboxLe_refl bbox, ?_, Finset.Subset.refl _, ?_⟩
      · intro i hi; cases hi
      · intro i hi hni
        exact absurd hi hni
    | cons cur rest =>
      have hstack2 : ∀ i ∈ (pushAllNbrs dirty (visited, rest)
          (nbrList tilesX tilesY (cur % tilesX) (cur / tilesX))).2,
          i < tilesX * tilesY := by
        intro i hi
        rcases pushAll_stack_from dirty
          (nbrList tilesX tilesY (cur % tilesX) (cur / tilesX))
          (visited, rest) i hi with h | h
        · exact hstk i (List.mem_cons_of_mem _ h)
        · exact nbrList_lt tilesX tilesY _ _ i h
      have hm1 : tdMeasure (tilesX * tilesY)
          (pushAllNbrs dirty (visited, rest)
            (nbrList tilesX tilesY (cur % tilesX) (cur / tilesX))).1
          (pushAllNbrs dirty (visited, rest)
            (nbrList tilesX tilesY (cur % tilesX) (cur / tilesX))).2 ≤
          tdMeasure (tilesX * tilesY) visited rest :=
        pushAll_measure dirty (tilesX * tilesY)
          (nbrList tilesX tilesY (cur % tilesX) (cur / tilesX))
          (visited, rest) (nbrList_lt tilesX tilesY _ _)
      have hmeas : tdMeasure (tilesX * tilesY)
          (pushAllNbrs dirty (visited, rest)
            (nbrList tilesX tilesY (cur % tilesX) (cur / tilesX))).1
          (pushAllNbrs dirty (visited, rest)
            (nbrList tilesX tilesY (cur % tilesX) (cur / tilesX))).2 ≤ n := by
        unfold tdMeasure at hm1 hfuel ⊢
        simp only [List.length_cons] at hfuel
        omega
      obtain ⟨hemp, hle, hcov, hsub, hnew⟩ := ih
        (pushAllNbrs dirty (visited, rest)
          (nbrList tilesX tilesY (cur % tilesX) (cur / tilesX))).1
        (pushAllNbrs dirty (visited, rest)
          (nbrList tilesX tilesY (cur % tilesX) (cur / tilesX))).2
        (extendB bbox (cur % tilesX) (cur / tilesX)) hmeas hstack2
      have hunf : floodStep dirty tilesX tilesY (n + 1) visited
          (cur :: rest) bbox =
          floodStep dirty tilesX tilesY n
            (pushAllNbrs dirty (visited, rest)
              (nbrList tilesX tilesY (cur % tilesX) (cur / tilesX))).1
            (pushAllNbrs dirty (visited, rest)
              (nbrList tilesX tilesY (cur % tilesX) (cur / tilesX))).2
            (extendB bbox (cur % tilesX) (cur / tilesX)) := rfl
      rw [hunf]
      refine ⟨hemp,
        bboxLe_trans (bboxLe_extend bbox (cur % tilesX) (cur / tilesX)) hle,
        ?_, ?_, ?_⟩
      · intro i hi
        rcases List.mem_cons.mp hi with h | h
        · rw [h]
          exact inBBox_mono hle
            (inBBox_extend bbox (cur % tilesX) (cur / tilesX))
        · exact hcov i (pushAll_stack_sub dirty
            (nbrList tilesX tilesY (cur % tilesX) (cur / tilesX))
            (visited, rest) i h)
      · exact fun x hx => hsub (pushAll_visited_sub dirty
          (nbrList tilesX tilesY (cur % tilesX) (cur / tilesX))
          (visited, rest) hx)
      · intro i hi hni
        by_cases hst1 : i ∈ (pushAllNbrs dirty (visited, rest)
            (nbrList tilesX tilesY (cur % tilesX) (cur / tilesX))).1
        · rcases pushAll_new_mem dirty
            (nbrList tilesX tilesY (cur % tilesX) (cur / tilesX))
            (visited, rest) i hst1 with h | h
          · exact absurd h hni
          · exact hcov i h
        · exact hnew i hi hst1

/-- Tile `j` is covered by some emitted rectangle: the rectangle is the
clipped scaling of a bounding box that contains `j`'s tile coordinates. -/
def Covered (W H T tilesX : Nat) (rects : List Rect) (j : Nat) : Prop :=
  ∃ r ∈ rects, ∃ b : BBox, r = rectOfBBox W H T b ∧
    inBBox b (j % tilesX) (j / tilesX)

lemma outerStep_spec (W H T tilesX tilesY : Nat) (dirty : Nat → Bool)
    (st : Finset Nat × List Rect) (idx : Nat)
    (hidx : idx < tilesX * tilesY) :
    st.1 ⊆ (outerStep W H T tilesX tilesY dirty st idx).1 ∧
    (∀ r ∈ st.2, r ∈ (outerStep W H T tilesX tilesY dirty st idx).2) ∧
    (dirty idx = true → idx ∈ (outerStep W H T tilesX tilesY dirty st idx).1) ∧
    ((∀ j ∈ st.1, Covered W H T tilesX st.2 j) →
      ∀ j ∈ (outerStep W H T tilesX tilesY dirty st idx).1,
        Covered W H T tilesX (outerStep W H T tilesX tilesY dirty st idx).2 j) := by
  unfold outerStep
  split_ifs with hcond
  · have hfuel : tdMeasure (tilesX * tilesY) (insert idx st.1) [idx] ≤
        2 * (tilesX * tilesY) + 1 := by
      unfold tdMeasure
      have hcard : ((Finset.range (tilesX * tilesY)) \ insert idx st.1).card ≤
          tilesX * tilesY := by
        calc ((Finset.range (tilesX * tilesY)) \ insert idx st.1).card ≤
            (Finset.range (tilesX * tilesY)).card :=
              Finset.card_le_card (Finset.sdiff_subset)
          _ = tilesX * tilesY := Finset.card_range _
      simp only [List.length_singleton]
      omega
    have hstk : ∀ i ∈ [idx], i < tilesX * tilesY := by
      intro i hi
      rw [List.mem_singleton.mp hi]
      exact hidx
    obtain ⟨hemp, hle, hcov, hsub, hnew⟩ := floodStep_spec dirty tilesX tilesY
      (2 * (tilesX * tilesY) + 1) (insert idx st.1) [idx]
      ⟨idx % tilesX, idx % tilesX, idx / tilesX, idx / tilesX⟩ hfuel hstk
    refine ⟨?_, ?_, ?_, ?_⟩
    · exact fun a ha => hsub (Finset.mem_insert_of_mem ha)
    · intro r hr
      exact List.mem_append_left _ hr
    · intro _
      exact hsub (Finset.mem_insert_self _ _)
    · intro hinv j hj
      by_cases hjold : j ∈ insert idx st.1
      · rcases Finset.mem_insert.mp hjold with h | h
        · subst h
          refine ⟨rectOfBBox W H T (floodStep dirty tilesX tilesY
              (2 * (tilesX * tilesY) + 1) (insert j st.1) [j]
              ⟨j % tilesX, j % tilesX, j / tilesX, j / tilesX⟩).2.2,
            List.mem_append_right _ (List.mem_singleton_self _), _, rfl, ?_⟩
          exact hcov j (List.mem_singleton_self _)
        · obtain ⟨r, hr, b, hrb, hinb⟩ := hinv j h
          exact ⟨r, List.mem_append_left _ hr, b, hrb, hinb⟩
      · refine ⟨rectOfBBox W H T (floodStep dirty tilesX tilesY
            (2 * (tilesX * tilesY) + 1) (insert idx st.1) [idx]
            ⟨idx % tilesX, idx % tilesX, idx / tilesX, idx / tilesX⟩).2.2,
          List.mem_append_right _ (List.mem_singleton_self _), _, rfl, ?_⟩
        exact hnew j hj hjold
  · refine ⟨Finset.Subset.refl _, fun r hr => hr, ?_, fun hinv => hinv⟩
    intro hdirt
    by_contra hmem
    exact hcond ⟨hdirt, hmem⟩

lemma outer_fold_vis_sub (W H T tilesX tilesY : Nat) (dirty : Nat → Bool) :
    ∀ (l : List Nat) (st : Finset Nat × List Rect),
      (∀ i ∈ l, i < tilesX * tilesY) →
      st.1 ⊆ (l.foldl (outerStep W H T tilesX tilesY dirty) st).1 := by
  intro l
  induction l with
  | nil => intro st _; exact Finset.Subset.refl _
  | cons idx t ih =>
    intro st hl
    calc st.1 ⊆ (outerStep W H T tilesX tilesY dirty st idx).1 :=
        (outerStep_spec W H T tilesX tilesY dirty st idx
          (hl idx (List.mem_cons_self _ _))).1
      _ ⊆ _ := ih (outerStep W H T tilesX tilesY dirty st idx)
          fun i hi => hl i (List.mem_cons_of_mem _ hi)

lemma outer_fold_spec (W H T tilesX tilesY : Nat) (dirty : Nat → Bool) :
    ∀ (l : List Nat) (st : Finset Nat × List Rect),
      (∀ i ∈ l, i < tilesX * tilesY) →
      (∀ j ∈ st.1, Covered W H T tilesX st.2 j) →
      (∀ j ∈ (l.foldl (outerStep W H T tilesX tilesY dirty) st).1,
        Covered W H T tilesX
          (l.foldl (outerStep W H T tilesX tilesY dirty) st).2 j) ∧
      (∀ i ∈ l, dirty i = true →
        i ∈ (l.foldl (outerStep W H T tilesX tilesY dirty) st).1) := by
  intro l
  induction l with
  | nil =>
    intro st _ hinv
    exact ⟨hinv, fun i hi => absurd hi (List.not_mem_nil i)⟩
  | cons idx t ih =>
    intro st hl hinv
    have hidx : idx < tilesX * tilesY := hl idx (List.mem_cons_self _ _)
    have hspec := outerStep_spec W H T tilesX tilesY dirty st idx hidx
    have hinv2 := hspec.2.2.2 hinv
    have hrec := ih (outerStep W H T tilesX tilesY dirty st idx)
      (fun i hi => hl i (List.mem_cons_of_mem _ hi)) hinv2
    refine ⟨hrec.1, ?_⟩
    intro i hi hdirt
    rcases List.mem_cons.mp hi with h | h
    · subst h
      exact outer_fold_vis_sub W H T tilesX tilesY dirty t
        (outerStep W H T tilesX tilesY dirty st i)
        (fun a ha => hl a (List.mem_cons_of_mem _ ha))
        (hspec.2.2.1 hdirt)
    · exact hrec.2 i h hdirt

lemma le_tilesDim_mul (n T : Nat) (hT : 1 ≤ T) : n ≤ tilesDim n T * T := by
  unfold tilesDim
  rw [Nat.mul_comm]
  have h1 := Nat.div_add_mod (n + T - 1) T
  have h2 : (n + T - 1) % T < T := Nat.mod_lt _ (by omega)
  omega

lemma div_lt_tilesDim (v n T : Nat) (hT : 1 ≤ T) (hv : v < n) :
    v / T < tilesDim n T := by
  have h1 : v < tilesDim n T * T :=
    lt_of_lt_of_le hv (le_tilesDim_mul n T hT)
  exact (Nat.div_lt_iff_lt_mul (by omega)).mpr h1

lemma lt_div_mul_add (v T : Nat) (hT : 1 ≤ T) : v < v / T * T + T := by
  rw [Nat.mul_comm]
  have h1 := Nat.div_add_mod v T
  have h2 : v % T < T := Nat.mod_lt _ (by omega)
  omega

lemma rowmajor_mod (tilesX tx ty : Nat) (htx : tx < tilesX) :
    (ty * tilesX + tx) % tilesX = tx := by
  rw [Nat.mul_comm ty tilesX, Nat.mul_add_mod, Nat.mod_eq_of_lt htx]

lemma rowmajor_div (tilesX tx ty : Nat) (htx : tx < tilesX) :
    (ty * tilesX + tx) / tilesX = ty := by
  rw [Nat.mul_comm ty tilesX, Nat.mul_add_div (by omega),
    Nat.div_eq_of_lt htx]
  omega

/-- A pixel that differs makes its tile dirty. -/
lemma tileDirty_of_pixel (cur prev : Nat → Nat → Nat) (W H T x y : Nat)
    (hT : 1 ≤ T) (hx : x < W) (hy : y < H) (hdiff : cur x y ≠ prev x y) :
    tileDirty cur prev W H T (x / T) (y / T) = true := by
  unfold tileDirty
  simp only [List.any_eq_true, List.mem_range]
  refine ⟨y - y / T * T, ?_, ?_⟩
  · have h1 : y / T * T ≤ y := Nat.div_mul_le_self y T
    have h2 : y < y / T * T + T := lt_div_mul_add y T hT
    omega
  · unfold rowDiffers
    simp only [List.any_eq_true, List.mem_range, decide_eq_true_eq]
    have hy0 : y / T * T ≤ y := Nat.div_mul_le_self y T
    have hy1 : y < y / T * T + T := lt_div_mul_add y T hT
    have hrow : y / T * T + (y - y / T * T) = y := by omega
    refine ⟨x - x / T * T, ?_, ?_⟩
    · have h1 : x / T * T ≤ x := Nat.div_mul_le_self x T
      have h2 : x < x / T * T + T := lt_div_mul_add x T hT
      omega
    · have hx0 : x / T * T ≤ x := Nat.div_mul_le_self x T
      have hcol : x / T * T + (x - x / T * T) = x := by omega
      rw [hrow, hcol]
      exact hdiff

/-- A pixel of a tile whose coordinates lie within a bounding box lies in
the clipped rectangle of that box. -/
lemma pixel_in_rect (W H T x y : Nat) (b : BBox) (hT : 1 ≤ T)
    (hx : x < W) (hy : y < H) (hb : inBBox b (x / T) (y / T)) :
    inRect (rectOfBBox W H T b) x y := by
  obtain ⟨h1, h2, h3, h4⟩ := hb
  have hrx : b.minTx * T ≤ x :=
    le_trans (Nat.mul_le_mul_right T h1) (Nat.div_mul_le_self x T)
  have hry : b.minTy * T ≤ y :=
    le_trans (Nat.mul_le_mul_right T h3) (Nat.div_mul_le_self y T)
  have halgx : b.minTx * T + (b.maxTx - b.minTx + 1) * T =
      (b.maxTx + 1) * T := by
    rw [← Nat.add_mul]
    congr 1
    omega
  have halgy : b.minTy * T + (b.maxTy - b.minTy + 1) * T =
      (b.maxTy + 1) * T := by
    rw [← Nat.add_mul]
    congr 1
    omega
  have hxlt : x < (b.maxTx + 1) * T := by
    have hstep : x < (x / T + 1) * T := by
      have := lt_div_mul_add x T hT
      have hmul : (x / T + 1) * T = x / T * T + T := by ring
      omega
    exact lt_of_lt_of_le hstep (Nat.mul_le_mul_right T (by omega))
  have hylt : y < (b.maxTy + 1) * T := by
    have hstep : y < (y / T + 1) * T := by
      have := lt_div_mul_add y T hT
      have hmul : (y / T + 1) * T = y / T * T + T := by ring
      omega
    exact lt_of_lt_of_le hstep (Nat.mul_le_mul_right T (by omega))
  unfold rectOfBBox inRect
  simp only
  refine ⟨hrx, ?_, hry, ?_⟩
  · split_ifs with hclip
    · omega
    · omega
  · split_ifs with hclip
    · omega
    · omega

/-- Shared coverage lemma: every differing pixel lies in a rectangle
produced by `compute_dirty_tiles` followed by `build_rects_from_tiles`. -/
lemma differ_coverage (cur prev : Nat → Nat → Nat) (W H T x y : Nat)
    (hT : 1 ≤ T) (hx : x < W) (hy : y < H)
    (hdiff : cur x y ≠ prev x y) :
    ∃ r ∈ build_rects_from_tiles W H T (compute_dirty_tiles cur prev W H T),
      inRect r x y := by
  have htx : x / T < tilesDim W T := div_lt_tilesDim x W T hT hx
  have hty : y / T < tilesDim H T := div_lt_tilesDim y H T hT hy
  have hcomm : tilesDim H T * tilesDim W T = tilesDim W T * tilesDim H T :=
    Nat.mul_comm _ _
  have hidxlt : y / T * tilesDim W T + x / T <
      tilesDim W T * tilesDim H T := by
    have h1 : (y / T + 1) * tilesDim W T ≤ tilesDim H T * tilesDim W T :=
      Nat.mul_le_mul_right _ (by omega)
    have h2 : (y / T + 1) * tilesDim W T =
        y / T * tilesDim W T + tilesDim W T := by ring
    omega
  have hdirty : compute_dirty_tiles cur prev W H T
      (y / T * tilesDim W T + x / T) = true := by
    unfold compute_dirty_tiles
    rw [rowmajor_mod _ _ _ htx, rowmajor_div _ _ _ htx]
    exact tileDirty_of_pixel cur prev W H T x y hT hx hy hdiff
  have hfold := outer_fold_spec W H T (tilesDim W T) (tilesDim H T)
    (compute_dirty_tiles cur prev W H T)
    (List.range (tilesDim H T * tilesDim W T)) (∅, [])
    (fun i hi => by rw [List.mem_range] at hi; omega)
    (fun j hj => absurd hj (Finset.not_mem_empty j))
  have hmem := hfold.2 (y / T * tilesDim W T + x / T)
    (List.mem_range.mpr (by omega)) hdirty
  obtain ⟨r, hr, b, hrb, hinb⟩ := hfold.1 _ hmem
  rw [rowmajor_mod _ _ _ htx, rowmajor_div _ _ _ htx] at hinb
  refine ⟨r, ?_, ?_⟩
  · unfold build_rects_from_tiles
    exact hr
  · rw [hrb]
    exact pixel_in_rect W H T x y b hT hx hy hinb

/-- C1: for every pair of framebuffers and every pixel `(x, y)` inside the
display, if the current and previous values differ at `(x, y)` then `(x, y)`
lies inside at least one rectangle produced by `compute_dirty_tiles`
followed by `build_rects_from_tiles`, for any tile size `T ≥ 1`. -/
theorem dirty_rect_coverage (cur prev : Nat → Nat → Nat) (W H T x y : Nat)
    (hT : 1 ≤ T) (hx : x < W) (hy : y < H)
    (hdiff : cur x y ≠ prev x y) :
    ∃ r ∈ build_rects_from_tiles W H T (compute_dirty_tiles cur prev W H T),
      inRect r x y :=
  differ_coverage cur prev W H T x y hT hx hy hdiff

/-- C1 witness: a `1 × 1` frame with one changed pixel, tile size 1. -/
theorem dirty_rect_coverage_witness :
    ∃ r ∈ build_rects_from_tiles 1 1 1
        (compute_dirty_tiles (fun _ _ => 1) (fun _ _ => 0) 1 1 1),
      inRect r 0 0 :=
  dirty_rect_coverage (fun _ _ => 1) (fun _ _ => 0) 1 1 1 0 0
    (by decide) (by decide) (by decide) (by decide)

/-! ### Full-frame escalation (src/main.cpp, main loop lines 225-243) -/

/-- The set of pixels that differ between current and previous frame. -/
def diffPixels (cur prev : Nat → Nat → Nat) (W H : Nat) :
    Finset (Nat × Nat) :=
  (Finset.range W ×ˢ Finset.range H).filter fun p => cur p.1 p.2 ≠ prev p.1 p.2

def rectPixels (r : Rect) : Finset (Nat × Nat) :=
  Finset.Ico r.x (r.x + r.w) ×ˢ Finset.Ico r.y (r.y + r.h)

lemma rectPixels_card (r : Rect) : (rectPixels r).card = r.w * r.h := by
  unfold rectPixels
  rw [Finset.card_product, Nat.card_Ico, Nat.card_Ico]
  simp

def unionRects (rects : List Rect) : Finset (Nat × Nat) :=
  rects.foldr (fun r acc => rectPixels r ∪ acc) ∅

lemma subset_unionRects {rects : List Rect} {r : Rect} (hr : r ∈ rects) :
    rectPixels r ⊆ unionRects rects := by
  induction rects with
  | nil => cases hr
  | cons hd tl ih =>
    rcases List.mem_cons.mp hr with h | h
    · subst h
      exact Finset.subset_union_left
    · exact Finset.Subset.trans (ih h) Finset.subset_union_right

lemma unionRects_card_le (rects : List Rect) :
    (unionRects rects).card ≤ (rects.map fun r => r.w * r.h).sum := by
  induction rects with
  | nil => simp [unionRects]
  | cons hd tl ih =>
    calc (unionRects (hd :: tl)).card ≤
        (rectPixels hd).card + (unionRects tl).card :=
          Finset.card_union_le _ _
      _ ≤ hd.w * hd.h + (tl.map fun r => r.w * r.h).sum := by
          rw [rectPixels_card]
          omega
      _ = ((hd :: tl).map fun r => r.w * r.h).sum := by
          rw [List.map_cons, List.sum_cons]

/-- The number of differing pixels never exceeds the total area of the
emitted dirty rectangles. -/
lemma diffPixels_card_le_area (cur prev : Nat → Nat → Nat) (W H T : Nat)
    (hT : 1 ≤ T) :
    (diffPixels cur prev W H).card ≤
      ((build_rects_from_tiles W H T
        (compute_dirty_tiles cur prev W H T)).map fun r => r.w * r.h).sum := by
  have hsub : diffPixels cur prev W H ⊆ unionRects
      (build_rects_from_tiles W H T (compute_dirty_tiles cur prev W H T)) := by
    intro p hp
    unfold diffPixels at hp
    rw [Finset.mem_filter, Finset.mem_product, Finset.mem_range,
      Finset.mem_range] at hp
    obtain ⟨⟨hpx, hpy⟩, hpd⟩ := hp
    obtain ⟨r, hr, hrin⟩ :=
      differ_coverage cur prev W H T p.1 p.2 hT hpx hpy hpd
    apply subset_unionRects hr
    unfold rectPixels
    rw [Finset.mem_product, Finset.mem_Ico, Finset.mem_Ico]
    obtain ⟨ha, hb, hc, hd⟩ := hrin
    exact ⟨⟨ha, hb⟩, hc, hd⟩
  calc (diffPixels cur prev W H).card ≤
      (unionRects (build_rects_from_tiles W H T
        (compute_dirty_tiles cur prev W H T))).card :=
        Finset.card_le_card hsub
    _ ≤ _ := unionRects_card_le _

/-- C2: whenever the fraction of differing pixels exceeds the threshold
(the code's `FULL_FRAME_THRESHOLD`, default 0.6), the differ decision of the
main loop is the full-frame path. -/
theorem full_frame_escalation (cur prev : Nat → Nat → Nat)
    (W H T maxRects : Nat) (threshold : ℚ) (hT : 1 ≤ T)
    (hth : 0 ≤ threshold)
    (hfrac : threshold <
      ((diffPixels cur prev W H).card : ℚ) / ((W * H : Nat) : ℚ)) :
    differDecision cur prev W H T maxRects threshold =
      DifferDecision.fullFrame := by
  have hscreen : 0 < W * H := by
    by_contra h
    push_neg at h
    have h0 : W * H = 0 := by omega
    rw [h0] at hfrac
    simp at hfrac
    exact absurd (lt_of_le_of_lt hth hfrac) (by norm_num)
  have hscreenQ : (0 : ℚ) < ((W * H : Nat) : ℚ) := by
    exact_mod_cast hscreen
  have hcardpos : 0 < (diffPixels cur prev W H).card := by
    by_contra h
    push_neg at h
    have h0 : (diffPixels cur prev W H).card = 0 := by omega
    rw [h0] at hfrac
    simp at hfrac
    exact absurd (lt_of_le_of_lt hth hfrac) (by norm_num)
  obtain ⟨p, hp⟩ := Finset.card_pos.mp hcardpos
  have hp' := hp
  unfold diffPixels at hp'
  rw [Finset.mem_filter, Finset.mem_product, Finset.mem_range,
    Finset.mem_range] at hp'
  obtain ⟨⟨hpx, hpy⟩, hpd⟩ := hp'
  have htx : p.1 / T < tilesDim W T := div_lt_tilesDim p.1 W T hT hpx
  have hty : p.2 / T < tilesDim H T := div_lt_tilesDim p.2 H T hT hpy
  have hdirty : compute_dirty_tiles cur prev W H T
      (p.2 / T * tilesDim W T + p.1 / T) = true := by
    unfold compute_dirty_tiles
    rw [rowmajor_mod _ _ _ htx, rowmajor_div _ _ _ htx]
    exact tileDirty_of_pixel cur prev W H T p.1 p.2 hT hpx hpy hpd
  have hidxmem : p.2 / T * tilesDim W T + p.1 / T ∈
      List.range (tilesDim H T * tilesDim W T) := by
    rw [List.mem_range]
    have h1 : (p.2 / T + 1) * tilesDim W T ≤ tilesDim H T * tilesDim W T :=
      Nat.mul_le_mul_right _ (by omega)
    have h2 : (p.2 / T + 1) * tilesDim W T =
        p.2 / T * tilesDim W T + tilesDim W T := by ring
    omega
  have hcnt : 0 < dirty_tiles_count cur prev W H T := by
    unfold dirty_tiles_count
    have hmem : p.2 / T * tilesDim W T + p.1 / T ∈
        (List.range (tilesDim H T * tilesDim W T)).filter
          (compute_dirty_tiles cur prev W H T) :=
      List.mem_filter.mpr ⟨hidxmem, hdirty⟩
    exact List.length_pos.mpr fun hnil => by rw [hnil] at hmem; cases hmem
  have harea := diffPixels_card_le_area cur prev W H T hT
  have hfrac2 : threshold <
      ((((build_rects_from_tiles W H T
        (compute_dirty_tiles cur prev W H T)).map
          fun r => r.w * r.h).sum : Nat) : ℚ) / ((W * H : Nat) : ℚ) := by
    apply lt_of_lt_of_le hfrac
    apply (div_le_div_right hscreenQ).mpr
    exact_mod_cast harea
  simp only [differDecision]
  rw [if_pos hcnt, if_pos hscreen, if_pos (Or.inl hfrac2)]

/-- C2 witness: a fully changed `1 × 1` frame (100% of pixels differ)
escalates to the full-frame path at threshold `0`. -/
theorem full_frame_escalation_witness :
    differDecision (fun _ _ => 1) (fun _ _ => 0) 1 1 1 8 0 =
      DifferDecision.fullFrame :=
  full_frame_escalation (fun _ _ => 1) (fun _ _ => 0) 1 1 1 8 0
    (by decide) (le_refl 0)
    (by
      have hcard : (diffPixels (fun _ _ => 1) (fun _ _ => 0) 1 1).card = 1 :=
        by decide
      rw [hcard]
      simp)
